import Mathlib

/-!
Verification development for the ELD trip-planner backend
(`backend/eld_app/views.py`).

The Python source is embedded shallowly:

* floating-point numbers become `ℚ` (all constants of the program are
  decimal, so the algorithmic content is preserved exactly);
* `datetime` values become `ℚ` hours counted from midnight of the start
  day (2025-10-15); `date()` becomes `⌊t/24⌋`, hour-of-day becomes
  `t - 24*⌊t/24⌋`;
* the geopy great-circle distance is an external collaborator and is a
  function parameter `dist`;
* operations that can raise in Python (`float / 0.0` raises
  `ZeroDivisionError`, indexing an empty list raises `IndexError`)
  return explicit error values;
* event/stop label strings are replaced by label tags carrying the same
  information (the interpolated pieces of the f-strings are kept as
  fields).
-/

set_option maxHeartbeats 1000000

/-- Coordinates as the code stores them: `[lon, lat]` pairs. -/
abbrev Coord : Type := ℚ × ℚ

/-- Event label tags; each constructor corresponds to one of the
`location` strings in `views.py` (interpolated data kept as fields). -/
inductive EvLabel : Type
  /-- `f'Start at {current_location}'` -/
  | start : EvLabel
  /-- `f'Rest Stop ({rest_hours}hrs)'` -/
  | restStop (restHours : ℚ) : EvLabel
  /-- `'End Rest'` -/
  | endRest : EvLabel
  /-- `'30min Break'` -/
  | break30 : EvLabel
  /-- `'End Break'` -/
  | endBreak : EvLabel
  /-- `f'Pickup at {pickup_location}'` -/
  | pickupAt : EvLabel
  /-- `'Start to Dropoff'` -/
  | startToDropoff : EvLabel
  /-- `'Driving'` -/
  | driving : EvLabel
  /-- `'Fueling'` -/
  | fueling : EvLabel
  /-- `'End Fueling'` -/
  | endFueling : EvLabel
  /-- `f'Dropoff at {dropoff_location}'` -/
  | dropoffAt : EvLabel
  /-- `'Off Duty'` -/
  | offDuty : EvLabel
deriving DecidableEq, Repr

/-- One duty event, as appended by `add_event`:
`{'day': current_time.date(), 'hours': ..., 'status': status, 'location': loc}`.
`day` is the number of days after 2025-10-15. Statuses are the integers
the code uses: 0 = Off Duty, 1 = Sleeper Berth, 2 = Driving,
3 = On Duty (Not Driving). -/
structure Event : Type where
  day : ℤ
  hours : ℚ
  status : ℕ
  loc : EvLabel
deriving DecidableEq, Repr

/-- Stop kind tags; constructors correspond to the `type` strings used
for entries of `stops` in `views.py`. -/
inductive StopKind : Type
  /-- `f'Fueling at {next_fuel} mi'` (planner) -/
  | fuelingAt (nextFuel : ℚ) : StopKind
  /-- `'Pickup'` -/
  | pickup : StopKind
  /-- `'Dropoff'` -/
  | dropoff : StopKind
  /-- `'Rest Stop'` (simulator) -/
  | restStop : StopKind
  /-- `'Break'` (simulator) -/
  | breakStop : StopKind
  /-- `'Fueling'` (simulator) -/
  | fueling : StopKind
deriving DecidableEq, Repr

/-- One stop marker: `{'lat': ..., 'lon': ..., 'type': ...}`. -/
structure Stop : Type where
  lat : ℚ
  lon : ℚ
  kind : StopKind
deriving DecidableEq, Repr

/-- The spec's data model classes both the planner's
`Fueling at N mi` stops and the simulator's `Fueling` stops as
Fueling-kind stops. -/
def StopKind.isFueling : StopKind → Bool
  | .fuelingAt _ => true
  | .fueling => true
  | _ => false

/-!
## GeometryDecoder (`decode_geometry`, views.py lines 395-428)

The encoded string is embedded as the list of its character codes
(`ord` values, as arbitrary integers).  The Python bit operations on
the (possibly negative) `byte = ord(c) - 63` are:
`byte & 0x1F = byte mod 32` (two's-complement mask by `2^5 - 1`) and
`byte < 0x20`.  `result |= chunk << shift` ORs disjoint 5-bit fields,
i.e. adds `chunk * 2^shift`; `result` is always non-negative, so it is
kept as `ℕ`.  `~x` on a Python int is `-x - 1`.
A read past the end of the string raises `IndexError`; that is the
`none` outcome.
-/

/-- One variable-length-integer read: the inner `while True` loop of
`decode_geometry` (either copy).  Returns the decoded non-negative
`result` and the remaining character codes, or `none` when the string
ends before a byte with the continuation bit clear (Python:
`IndexError` on `encoded[index]`). -/
def decodeVarint : List ℤ → ℕ → ℕ → Option (ℕ × List ℤ)
  | [], _, _ => none
  | c :: rest, shift, result =>
      let byte : ℤ := c - 63
      let result' : ℕ := result ||| ((byte.emod 32).toNat <<< shift)
      if byte < 32 then some (result', rest)
      else decodeVarint rest (shift + 5) result'

/-- Zig-zag sign decoding:
`~(result >> 1) if (result & 1) else (result >> 1)`. -/
def zigzag (result : ℕ) : ℤ :=
  if result &&& 1 = 1 then -(((result >>> 1 : ℕ) : ℤ)) - 1
  else ((result >>> 1 : ℕ) : ℤ)

/-- The main `while index < len(encoded)` loop of `decode_geometry`,
accumulating the running `lat`, `lon`.  The first argument is
structural-recursion fuel: every successful varint read consumes at
least one character, so fuel `l.length` (as supplied by
`decode_geometry`) can never run out before the list does; the
fuel-exhausted value is arbitrary (`none`) and unreachable. -/
def decodeLoop : ℕ → List ℤ → ℤ → ℤ → Option (List Coord)
  | _, [], _, _ => some []
  | 0, _ :: _, _, _ => none
  | fuel + 1, c :: rest, lat, lon =>
      match decodeVarint (c :: rest) 0 0 with
      | none => none
      | some (r1, rest1) =>
          let lat' := lat + zigzag r1
          match decodeVarint rest1 0 0 with
          | none => none
          | some (r2, rest2) =>
              let lon' := lon + zigzag r2
              match decodeLoop fuel rest2 lat' lon' with
              | none => none
              | some coords =>
                  some (((lon' : ℚ) * (1 / 100000), (lat' : ℚ) * (1 / 100000)) :: coords)

/-- `decode_geometry(encoded)` (views.py lines 395-428), over the list
of character codes of `encoded`.  `none` models the `IndexError` raised
when the string ends inside a coordinate pair. -/
def decode_geometry (codes : List ℤ) : Option (List Coord) :=
  decodeLoop codes.length codes 0 0

/-- Structural completeness of the code stream: the codes can be split
into complete varint pairs, where a varint is complete when it ends
with a character whose `ord`-63 value is below 32 (continuation bit
clear).  This looks only at the termination bits, never at the decoded
values. -/
def varintEnd : List ℤ → Option (List ℤ)
  | [] => none
  | c :: rest => if (c - 63 : ℤ) < 32 then some rest else varintEnd rest

/-- Fuel-indexed worker for `pairsComplete`; fuel is bounded below by
the list length exactly as in `decodeLoop`. -/
def pairsCompleteGo : ℕ → List ℤ → Bool
  | _, [] => true
  | 0, _ :: _ => false
  | fuel + 1, c :: rest =>
      match varintEnd (c :: rest) with
      | none => false
      | some rest1 =>
          match varintEnd rest1 with
          | none => false
          | some rest2 => pairsCompleteGo fuel rest2

/-- The code stream splits into complete (latitude, longitude) varint
pairs. -/
def pairsComplete (l : List ℤ) : Bool :=
  pairsCompleteGo l.length l

/-!
## DistanceAccumulator (`get_cum_mi`, views.py lines 194-200)

`geo_distance(a, b).miles` (geopy) is the external great-circle
distance collaborator; it is passed in as `dist`, applied to
`[lat, lon]` pairs exactly as in the source (which flips the
`[lon, lat]` input coordinates first).
-/

/-- The `for i in range(1, len(lat_lon))` loop: given the accumulated
distance so far and the previous point, emit the remaining cumulative
entries. -/
def cumFrom (dist : ℚ × ℚ → ℚ × ℚ → ℚ) (acc : ℚ) :
    ℚ × ℚ → List (ℚ × ℚ) → List ℚ
  | _, [] => []
  | prev, p :: rest =>
      let a := acc + dist prev p
      a :: cumFrom dist a p rest

/-- `get_cum_mi(coords)` (views.py lines 194-200): flips each `[lon, lat]`
to `[lat, lon]`, starts the cumulative list at `[0.0]`, and appends
`cum[-1] + dist(lat_lon[i-1], lat_lon[i])` for `i = 1 .. len-1`.
Note that for `coords = []` the result is `[0.0]`, which is non-empty. -/
def get_cum_mi (dist : ℚ × ℚ → ℚ × ℚ → ℚ) (coords : List Coord) : List ℚ :=
  let lat_lon := coords.map fun c => (c.2, c.1)
  match lat_lon with
  | [] => [0]
  | p :: rest => 0 :: cumFrom dist 0 p rest

/-!
## Python exception values

`float / 0.0` raises `ZeroDivisionError`; indexing an empty list (or
past its end) raises `IndexError`.  Both abort the request.
-/

/-- Exceptions the embedded code can raise. -/
inductive PyErr : Type
  | zeroDivision : PyErr
  | indexError : PyErr
deriving DecidableEq, Repr

/-!
## StopPlanner (views.py lines 209-224)

The fueling-stop seeding loop:

```
next_fuel = 1000
while next_fuel < total_mi:
    for i in range(1, len(full_cum)):
        if full_cum[i] >= next_fuel >= full_cum[i-1]:
            frac = (next_fuel - full_cum[i-1]) / (full_cum[i] - full_cum[i-1])
            ... append interpolated Fueling stop ...; break
    next_fuel += 1000
```
-/

/-- The inner `for i in range(1, len(full_cum))` scan: find the first
bracketing index and emit one interpolated stop, or `none` when no
index brackets `nextFuel`.  The division is Python float division:
a zero denominator raises.
Fuel-indexed with fuel at least `cum.length` (the scan starts at
`i = 1` and stops at `i = cum.length`, so the fuel-exhausted branch,
which returns the same no-bracket value, is unreachable). -/
def fuelFind (cum : List ℚ) (coords : List Coord) (nextFuel : ℚ) :
    ℕ → ℕ → Except PyErr (Option Stop)
  | 0, _ => .ok none
  | fuel + 1, i =>
    if i < cum.length then
      if cum.getD i 0 ≥ nextFuel ∧ nextFuel ≥ cum.getD (i - 1) 0 then
        if cum.getD i 0 - cum.getD (i - 1) 0 = 0 then .error .zeroDivision
        else
          let frac := (nextFuel - cum.getD (i - 1) 0) / (cum.getD i 0 - cum.getD (i - 1) 0)
          let lon := (coords.getD (i - 1) (0, 0)).1 +
            frac * ((coords.getD i (0, 0)).1 - (coords.getD (i - 1) (0, 0)).1)
          let lat := (coords.getD (i - 1) (0, 0)).2 +
            frac * ((coords.getD i (0, 0)).2 - (coords.getD (i - 1) (0, 0)).2)
          .ok (some { lat := lat, lon := lon, kind := .fuelingAt nextFuel })
      else fuelFind cum coords nextFuel fuel (i + 1)
    else .ok none

/-- The outer `while next_fuel < total_mi` loop, fuel-indexed: each
iteration advances `next_fuel` by 1000, so `⌈(totalMi - nextFuel) /
1000⌉.toNat` bounds the number of loop entries; the fuel-exhausted
value coincides with the guard-false value, so any fuel at least that
bound gives exactly the loop's semantics. -/
def fuelLoop (cum : List ℚ) (coords : List Coord) (totalMi : ℚ) :
    ℕ → ℚ → Except PyErr (List Stop)
  | 0, _ => .ok []
  | fuel + 1, nextFuel =>
    if nextFuel < totalMi then
      match fuelFind cum coords nextFuel cum.length 1 with
      | .error e => .error e
      | .ok o =>
          match fuelLoop cum coords totalMi fuel (nextFuel + 1000) with
          | .error e => .error e
          | .ok rest => .ok (o.toList ++ rest)
    else .ok []

/-- The planner's fueling-stop list (views.py lines 209-220), starting
from the initial `next_fuel = 1000`. -/
def plannerStops (cum : List ℚ) (coords : List Coord) (totalMi : ℚ) :
    Except PyErr (List Stop) :=
  fuelLoop cum coords totalMi (⌈(totalMi - 1000) / 1000⌉).toNat 1000

/-!
## DutyCycleSimulator (views.py lines 233-354)

State variables of the main simulation loop.  The last five fields are
ghost instrumentation for the hours-of-service properties; they are
written exactly where the corresponding quantities change and are never
read by any non-ghost computation.
-/

/-- Trip-level inputs of the simulation (immutable during the loop). -/
structure SimCtx : Type where
  distance1Mi : ℚ
  distance2Mi : ℚ
  totalHr : ℚ
  fullCoords : List Coord
  fullCum : List ℚ
deriving DecidableEq, Repr

/-- `total_mi = distance1_mi + distance2_mi` (line 183). -/
def SimCtx.totalMi (c : SimCtx) : ℚ := c.distance1Mi + c.distance2Mi

/-- `avg_mph = total_mi / total_hr if total_hr > 0 else 0` (line 185). -/
def SimCtx.avgMph (c : SimCtx) : ℚ :=
  if c.totalHr > 0 then c.totalMi / c.totalHr else 0

/-- `start_time = datetime(2025, 10, 15, 18, 45)` as hours from midnight
of day 0 (= 2025-10-15). -/
def startTimeHours : ℚ := 18 + 45 / 60

/-- The mutable loop state (lines 233-247), plus the raised-exception
marker and ghost instrumentation. -/
structure SimSt : Type where
  /-- `current_time`, in hours since midnight of day 0. -/
  time : ℚ
  /-- `current_mi` -/
  mi : ℚ
  /-- `i`, the cumulative-mile lookup cursor -/
  i : ℕ
  /-- `window_start` -/
  ws : ℚ
  /-- `last_break_end` -/
  lbe : ℚ
  /-- `cum_drive_day` -/
  cum : ℚ
  /-- `cum_on_day` -/
  cumOn : ℚ
  /-- `cum_on_8day` -/
  c8 : ℚ
  /-- `next_fuel` -/
  nf : ℚ
  /-- `is_to_pickup` -/
  toPickup : Bool
  /-- `current_lat` -/
  lat : ℚ
  /-- `current_lon` -/
  lon : ℚ
  /-- `events` -/
  events : List Event
  /-- `stops` (already seeded by the planner) -/
  stops : List Stop
  /-- a raised, uncaught Python exception (aborts the loop) -/
  err : Option PyErr
  /-- ghost: value `cum_drive_day` had when `last_break_end` was last set -/
  cumAtLbe : ℚ
  /-- ghost monitor: some Driving advance left `cum_drive_day > 11` -/
  gDay : Bool
  /-- ghost monitor: some Driving advance left `current_time - window_start > 14` hours -/
  gWin : Bool
  /-- ghost monitor: some Driving advance left more than 8 hours of driving
  accumulated since the last break/rest end -/
  gBrk : Bool
  /-- ghost monitor: some Driving span exceeded `14 - time_since_window`
  as measured at the top of its iteration -/
  gStale : Bool
deriving DecidableEq, Repr

/-- `add_event` (lines 250-255): `hours` is the time since midnight of
the current day, `day` the day index. -/
def addEvent (s : SimSt) (status : ℕ) (loc : EvLabel) : SimSt :=
  { s with events := s.events ++
      [{ day := ⌊s.time / 24⌋, hours := s.time - 24 * ⌊s.time / 24⌋,
         status := status, loc := loc }] }

/-- The long-rest branch (lines 267-282). -/
def restPhase (s : SimSt) (tsw : ℚ) : SimSt :=
  if s.cum ≥ 11 ∨ tsw ≥ 14 ∨ s.c8 ≥ 70 then
    let restHours : ℚ := if s.c8 < 70 then 10 else 34
    let s1 := addEvent s 0 (.restStop restHours)
    let s2 := { s1 with time := s1.time + restHours }
    let s3 := addEvent s2 3 .endRest
    { s3 with
      ws := s3.time, lbe := s3.time, cum := 0, cumOn := 0,
      c8 := max 0 (s3.c8 - (if restHours = 34 then 34 else 0)),
      stops := s3.stops ++ [{ lat := s3.lat, lon := s3.lon, kind := .restStop }],
      cumAtLbe := 0 }
  else s

/-- `drive_since_break` as recomputed at line 285. -/
def dsbOf (s : SimSt) : ℚ :=
  if s.lbe > s.ws then s.cum - (s.lbe - s.ws) else s.cum

/-- The 30-minute-break branch (lines 284-292); returns the updated
state together with the local `drive_since_break` value. -/
def breakPhase (s : SimSt) : SimSt × ℚ :=
  let dsb := dsbOf s
  if dsb ≥ 8 then
    let s1 := addEvent s 0 .break30
    let s2 := { s1 with time := s1.time + 1 / 2 }
    let s3 := addEvent s2 2 .endBreak
    ({ s3 with
       lbe := s3.time,
       stops := s3.stops ++ [{ lat := s3.lat, lon := s3.lon, kind := .breakStop }],
       cumAtLbe := s3.cum }, 0)
  else (s, dsb)

/-- The pickup-transition branch (lines 294-302). -/
def pickupPhase (c : SimCtx) (s : SimSt) : SimSt :=
  if s.toPickup ∧ s.mi ≥ c.distance1Mi then
    let s1 := addEvent s 3 .pickupAt
    let s2 := { s1 with
      time := s1.time + 1, cumOn := s1.cumOn + 1, c8 := s1.c8 + 1 }
    let s3 := addEvent s2 2 .startToDropoff
    { s3 with toPickup := false }
  else s

/-- The allowed-driving computation (lines 304-313), in miles.  `tsw` is
the `time_since_window` captured at the top of the iteration (line 265)
and `dsb` the local `drive_since_break`. -/
def maxDriveOf (c : SimCtx) (s : SimSt) (tsw dsb : ℚ) : ℚ :=
  let maxDriveBreak := if dsb < 8 then 8 - dsb else 0
  let maxDriveDay := 11 - s.cum
  let maxDriveWindow := 14 - tsw
  let md := min (min maxDriveBreak maxDriveDay)
    (min maxDriveWindow ((c.totalMi - s.mi) / c.avgMph)) * c.avgMph
  if s.mi + md > s.nf then s.nf - s.mi else md

/-- `while i < len(full_cum) - 1 and full_cum[i+1] < target: i += 1`
(lines 327-328), fuel-indexed: the guard `i < cum.length - 1` bounds
the iteration count by `cum.length`, so with that fuel (as supplied by
`updatePos`) the fuel-exhausted branch is unreachable and returns the
same `i` the guard-false exit would. -/
def advanceIdx (cum : List ℚ) (target : ℚ) : ℕ → ℕ → ℕ
  | 0, i => i
  | fuel + 1, i =>
      if i < cum.length - 1 ∧ cum.getD (i + 1) 0 < target then
        advanceIdx cum target fuel (i + 1)
      else i

/-- The live-position interpolation (lines 325-336).  A zero denominator
is a `ZeroDivisionError`; `full_coords[-1]` on an empty list is an
`IndexError`. -/
def updatePos (c : SimCtx) (s : SimSt) : SimSt :=
  let target := s.mi
  let i := advanceIdx c.fullCum target c.fullCum.length s.i
  if i < c.fullCum.length - 1 then
    if c.fullCum.getD (i + 1) 0 - c.fullCum.getD i 0 = 0 then
      { s with i := i, err := some .zeroDivision }
    else
      let frac := (target - c.fullCum.getD i 0) /
        (c.fullCum.getD (i + 1) 0 - c.fullCum.getD i 0)
      { s with
        i := i,
        lat := (c.fullCoords.getD i (0, 0)).2 +
          frac * ((c.fullCoords.getD (i + 1) (0, 0)).2 - (c.fullCoords.getD i (0, 0)).2),
        lon := (c.fullCoords.getD i (0, 0)).1 +
          frac * ((c.fullCoords.getD (i + 1) (0, 0)).1 - (c.fullCoords.getD i (0, 0)).1) }
  else
    match c.fullCoords.getLast? with
    | none => { s with i := i, err := some .indexError }
    | some last => { s with i := i, lat := last.2, lon := last.1 }

/-- The driving advance itself (lines 316-323): emits the Driving
event and advances time, mileage and the accumulators by the computed
span, recording the ghost monitors at exactly that point. -/
def driveAdvance (c : SimCtx) (s : SimSt) (tsw dsb : ℚ) : SimSt :=
  let s1 := addEvent s 2 .driving
  let span := maxDriveOf c s tsw dsb / c.avgMph
  { s1 with
    time := s1.time + span, mi := s1.mi + maxDriveOf c s tsw dsb,
    cum := s1.cum + span, cumOn := s1.cumOn + span, c8 := s1.c8 + span,
    gDay := s1.gDay || decide (s1.cum + span > 11),
    gWin := s1.gWin || decide (s1.time + span - s1.ws > 14),
    gBrk := s1.gBrk || decide (s1.cum + span - s1.cumAtLbe > 8),
    gStale := s1.gStale || decide (span > 14 - tsw) }

/-- The fueling-event block (lines 338-346). -/
def fuelCheck (s3 : SimSt) : SimSt :=
  if s3.mi ≥ s3.nf then
    let s4 := addEvent s3 3 .fueling
    let s5 := { s4 with
      time := s4.time + 1 / 2, cumOn := s4.cumOn + 1 / 2, c8 := s4.c8 + 1 / 2 }
    let s6 := addEvent s5 2 .endFueling
    { s6 with
      nf := s6.nf + 1000,
      stops := s6.stops ++ [{ lat := s6.lat, lon := s6.lon, kind := .fueling }] }
  else s3

/-- The driving block (lines 304-346): computes `max_drive`; the
division `(total_mi - current_mi) / avg_mph` at line 309 raises when
`avg_mph` is zero.  If `max_drive > 0`, performs the driving advance,
updates the live position (a raised exception skips the rest of the
body), and handles fueling. -/
def drivePhase (c : SimCtx) (s : SimSt) (tsw dsb : ℚ) : SimSt :=
  if c.avgMph = 0 then { s with err := some .zeroDivision }
  else if maxDriveOf c s tsw dsb > 0 then
    let s3 := updatePos c (driveAdvance c s tsw dsb)
    if s3.err.isSome then s3 else fuelCheck s3
  else s

/-- The trip-completion block (lines 348-354). -/
def dropoffPhase (c : SimCtx) (s : SimSt) : SimSt :=
  if s.mi ≥ c.totalMi then
    let s1 := addEvent s 3 .dropoffAt
    let s2 := { s1 with
      time := s1.time + 1, cumOn := s1.cumOn + 1, c8 := s1.c8 + 1 }
    addEvent s2 0 .offDuty
  else s

/-- One iteration of the main `while current_mi < total_mi` body
(lines 263-354).  `time_since_window` is captured once at the top
(line 265) and reused, stale, by the window cap at line 307. -/
def simStep (c : SimCtx) (s : SimSt) : SimSt :=
  let tsw := s.time - s.ws
  let s1 := restPhase s tsw
  let p := breakPhase s1
  let s3 := pickupPhase c p.1
  let s4 := drivePhase c s3 tsw p.2
  if s4.err.isSome then s4 else dropoffPhase c s4

/-- Run up to `n` iterations of the loop; stops early when the loop
guard `current_mi < total_mi` fails or an exception was raised. -/
def simRun (c : SimCtx) : ℕ → SimSt → SimSt
  | 0, s => s
  | n + 1, s =>
      if s.mi < c.totalMi ∧ s.err = none then simRun c n (simStep c s) else s

/-- The loop state just before the first iteration (lines 233-258),
with the stop list already holding the planner's output:
`cum_on_8day` starts at the caller-provided `cycle_hours`, the live
position at the geocoded current location `(lat, lon)`, and the Start
event is emitted. -/
def initSt (cycleHours : ℚ) (currentCoords : ℚ × ℚ) (initStops : List Stop) : SimSt :=
  addEvent
    { time := startTimeHours, mi := 0, i := 0, ws := startTimeHours,
      lbe := startTimeHours, cum := 0, cumOn := 0, c8 := cycleHours, nf := 1000,
      toPickup := true, lat := currentCoords.1, lon := currentCoords.2,
      events := [], stops := initStops, err := none,
      cumAtLbe := 0, gDay := false, gWin := false, gBrk := false, gStale := false }
    3 .start

/-- The stop-seeding plus simulation part of `create_trip`
(lines 209-354): plans the fueling stops, appends Pickup and Dropoff,
then runs up to `n` iterations of the duty-cycle loop.
`pickupCoords`, `dropoffCoords`, `currentCoords` are geocoded
`(lat, lon)` pairs. -/
def tripSim (c : SimCtx) (cycleHours : ℚ)
    (currentCoords pickupCoords dropoffCoords : ℚ × ℚ) (n : ℕ) :
    Except PyErr SimSt :=
  match plannerStops c.fullCum c.fullCoords c.totalMi with
  | .error e => .error e
  | .ok ps =>
      let stops0 := ps ++
        [{ lat := pickupCoords.1, lon := pickupCoords.2, kind := .pickup },
         { lat := dropoffCoords.1, lon := dropoffCoords.2, kind := .dropoff }]
      .ok (simRun c n (initSt cycleHours currentCoords stops0))

/-!
## DailyLogRenderer (`generate_log_image`, views.py lines 437-503)

Drawing is abstracted as the ordered list of draw commands issued on
the 1200x600 canvas; text content is abstracted to tags.  PIL's
`draw.line` default width is 0 (a one-pixel line); the status trace is
drawn with `width=3`.
-/

/-- An event dict as consumed by the renderer (`hours`, `status`,
`location`; the `day` key is not read). -/
structure REvent : Type where
  hours : ℚ
  status : ℕ
  loc : EvLabel
deriving DecidableEq, Repr

/-- Text tags standing for the strings drawn by the renderer. -/
inductive TextTag : Type
  /-- `"Driver's Daily Log"` -/
  | header : TextTag
  /-- `f"Date: {day...}"` -/
  | dateLabel (day : ℤ) : TextTag
  /-- `labels[r]` (row label `r`) -/
  | rowLabel (r : ℕ) : TextTag
  /-- the hour label for hour `h` (`'Mid'`, `'Noon'`, or a numeral) -/
  | hourLabel (h : ℕ) : TextTag
  /-- `e['location']` -/
  | evLabel (l : EvLabel) : TextTag
deriving DecidableEq, Repr

/-- One draw call on the canvas. -/
inductive DrawCmd : Type
  | line (x1 y1 x2 y2 : ℚ) (width : ℕ) : DrawCmd
  | text (x y : ℚ) (tag : TextTag) : DrawCmd
deriving DecidableEq, Repr

/-- The `for e in events[1:]` trace loop (lines 483-496): returns the
issued commands together with the final `prev_x` and `prev_status`.
Constants inlined: `grid_top = 100`, `row_h = 50`,
`hour_w = 1100 / 24`, `grid_bottom = 300`, `line_w = 3`. -/
def traceLoop (prevX : ℚ) (prevStatus : ℕ) : List REvent → List DrawCmd × ℚ × ℕ
  | [] => ([], prevX, prevStatus)
  | e :: rest =>
      let x : ℚ := 50 + e.hours * (1100 / 24)
      let y : ℚ := 100 + (prevStatus : ℚ) * 50 + 50 / 2
      let newY : ℚ := 100 + (e.status : ℚ) * 50 + 50 / 2
      let t := traceLoop x e.status rest
      (DrawCmd.line prevX y x y 3 :: DrawCmd.line x y x newY 3 ::
        DrawCmd.text x (300 + 10) (.evLabel e.loc) :: t.1, t.2)

/-- The abstract result of `generate_log_image`: canvas size and the
ordered draw-command list. -/
structure RenderOut : Type where
  width : ℕ
  height : ℕ
  cmds : List DrawCmd
deriving DecidableEq, Repr

/-- `generate_log_image(day, events)` (views.py lines 437-503).
`events[0]` on an empty list raises `IndexError` (`none`). -/
def generate_log_image (day : ℤ) (events : List REvent) : Option RenderOut :=
  match events with
  | [] => none
  | e0 :: rest =>
      let gridTop : ℚ := 100
      let rowH : ℚ := 50
      let gridBottom : ℚ := gridTop + 4 * rowH
      let hourW : ℚ := 1100 / 24
      let headerCmds : List DrawCmd :=
        [.text 50 20 .header, .text 50 40 (.dateLabel day)]
      let rowLines : List DrawCmd := (List.range 5).map fun (r : ℕ) =>
        .line 50 (gridTop + (r : ℚ) * rowH) 1150 (gridTop + (r : ℚ) * rowH) 0
      let rowLabels : List DrawCmd := (List.range 4).map fun (r : ℕ) =>
        .text 10 (gridTop + (r : ℚ) * rowH + 10) (.rowLabel r)
      let hourLines : List DrawCmd := (List.range 25).map fun (h : ℕ) =>
        .line (50 + (h : ℚ) * hourW) gridTop (50 + (h : ℚ) * hourW) gridBottom 0
      let tickCmds : List DrawCmd := (List.range 24).flatMap fun (h : ℕ) =>
        (List.range 3).flatMap fun (q : ℕ) =>
          let x : ℚ := 50 + (h : ℚ) * hourW + ((q : ℚ) + 1) * (hourW / 4)
          [.line x gridTop x (gridTop + 5) 0, .line x gridBottom x (gridBottom - 5) 0]
      let hourLabels : List DrawCmd := (List.range 25).map fun (h : ℕ) =>
        let x : ℚ := if h > 0 then 50 + ((h : ℚ) - 1 / 2) * hourW else 50
        .text (x - 10) (gridTop - 20) (.hourLabel h)
      let t := traceLoop 50 e0.status rest
      let finalY : ℚ := gridTop + (t.2.2 : ℚ) * rowH + rowH / 2
      some { width := 1200, height := 600,
             cmds := headerCmds ++ rowLines ++ rowLabels ++ hourLines ++ tickCmds ++
               hourLabels ++ t.1 ++ [.line t.2.1 finalY 1150 finalY 3] }

/-- The status-trace segments of a command list: the `width = 3` line
draws, in order. -/
def traceSegments (cmds : List DrawCmd) : List (ℚ × ℚ × ℚ × ℚ) :=
  cmds.filterMap fun c =>
    match c with
    | .line x1 y1 x2 y2 3 => some (x1, y1, x2, y2)
    | _ => none

/-- Modelled from the spec (claim C9's layout description): the x pixel
of an event, `x = 50 + hours * (1100 / 24)`. -/
def specX (e : REvent) : ℚ := 50 + e.hours * (1100 / 24)

/-- Modelled from the spec (claim C9's layout description): the row
center of a status, rows 50px tall from vertical offset 100 in status
order 0,1,2,3 top to bottom. -/
def specY (status : ℕ) : ℚ := 100 + (status : ℚ) * 50 + 25

/-- Modelled from the spec (claim C9): the stepped polyline anchored at
a current pen position `(prevX, prevStatus)`: for each event, a
horizontal segment at the previous status's row center from the
previous x to the event's x, a vertical segment to the event's
status's row center at that x; finally a horizontal segment extending
the last status's line to x = 1150. -/
def specStepsFrom (prevX : ℚ) (prevStatus : ℕ) : List REvent → List (ℚ × ℚ × ℚ × ℚ)
  | [] => [(prevX, specY prevStatus, 1150, specY prevStatus)]
  | e :: rest =>
      (prevX, specY prevStatus, specX e, specY prevStatus) ::
      (specX e, specY prevStatus, specX e, specY e.status) ::
      specStepsFrom (specX e) e.status rest

/-- Modelled from the spec (claim C9): the full stepped status trace of
an event list, starting at the first event's position. -/
def specSteppedTrace : List REvent → List (ℚ × ℚ × ℚ × ℚ)
  | [] => []
  | e0 :: rest => specStepsFrom (specX e0) e0.status rest

/-!
## Loop invariant and termination measure for the simulator

`Inv` collects the facts preserved by every iteration of the main loop;
`simMeasure` is an integer measure that is non-negative under `Inv` and
strictly decreases on every iteration that leaves the loop guard true.
-/

/-- Well-formedness of the simulation inputs: route legs with positive
total distance and duration, and a cumulative curve starting at 0 over
a non-empty coordinate list (as `get_cum_mi` of a decoded route always
produces). -/
structure SimCtx.ok (c : SimCtx) : Prop where
  hr_pos : 0 < c.totalHr
  total_pos : 0 < c.totalMi
  cum_head : c.fullCum.head? = some 0
  coords_ne : c.fullCoords ≠ []

/-- Ghost drive-time accumulated since the last break/rest end. -/
def SimSt.gDsb (s : SimSt) : ℚ := s.cum - s.cumAtLbe

/-- The loop invariant. -/
structure SimInv (c : SimCtx) (s : SimSt) : Prop where
  cum_le : s.cum ≤ 11
  cum_nn : 0 ≤ s.cum
  cum_wall : s.cum ≤ s.time - s.ws
  ws_lbe : s.ws ≤ s.lbe
  branch : (s.lbe = s.ws ∧ s.cumAtLbe = 0 ∧ s.cum ≤ 8) ∨
    (s.ws + s.cumAtLbe + 1 / 2 ≤ s.lbe ∧ 8 ≤ s.cumAtLbe ∧ s.cumAtLbe ≤ s.cum)
  mi_nn : 0 ≤ s.mi
  mi_nf : s.mi < s.nf
  mi_total : s.mi ≤ c.totalMi
  nf_ge : 1000 ≤ s.nf
  nf_le : s.nf ≤ c.totalMi + 1000
  pos_inv : (s.mi = 0 ∧ s.i = 0) ∨ c.fullCum.getD s.i 0 < s.mi
  err_none : s.err = none
  gday : s.gDay = false
  gbrk : s.gBrk = false
  gstale : s.gStale = false

/-- Hours of driving needed to cover the remaining distance. -/
def remHr (c : SimCtx) (s : SimSt) : ℚ := (c.totalMi - s.mi) / c.avgMph

/-- Number of fueling events still ahead. -/
def fCnt (c : SimCtx) (s : SimSt) : ℤ := ⌈(c.totalMi + 1000 - s.nf) / 1000⌉

/-- Pending pickup transitions (0 or 1). -/
def pCnt (s : SimSt) : ℤ := if s.toPickup then 1 else 0

/-- Number of 30-minute breaks still ahead. -/
def bCnt (c : SimCtx) (s : SimSt) : ℤ := ⌈(remHr c s + s.gDsb) / 8⌉

/-- Potential consumed by 34-hour cycle resets: conserved by every
other transition of the loop. -/
def phiC8 (c : SimCtx) (s : SimSt) : ℚ :=
  max 0 s.c8 + remHr c s + (fCnt c s : ℚ) / 2 + (pCnt s : ℚ)

/-- Potential consumed by long rests: conserved by driving, fueling,
breaks and the pickup dwell, and reduced by at least 11 by every
10-hour rest. -/
def phiR (c : SimCtx) (s : SimSt) : ℚ :=
  remHr c s + (fCnt c s : ℚ) / 2 + (pCnt s : ℚ) + (bCnt c s : ℚ) / 2 + (s.time - s.ws)

/-- Measure component: 34-hour resets remaining. -/
def m1 (c : SimCtx) (s : SimSt) : ℤ := ⌈phiC8 c s / 34⌉

/-- Measure component: long rests remaining. -/
def m2 (c : SimCtx) (s : SimSt) : ℤ := ⌈phiR c s / 11⌉

/-- Measure component: breaks, fuelings and pickups remaining. -/
def m3 (c : SimCtx) (s : SimSt) : ℤ := bCnt c s + fCnt c s + pCnt s

/-- Measure component: headroom indicators for the three driving caps
that a pure driving step can exhaust. -/
def m4 (s : SimSt) : ℤ :=
  (if s.gDsb < 8 then 1 else 0) + (if s.cum < 11 then 1 else 0) +
    (if s.time - s.ws < 14 then 1 else 0)

/-- The combined termination measure of the simulation loop. -/
def simMeasure (c : SimCtx) (s : SimSt) : ℤ :=
  4 * (m1 c s + m2 c s + m3 c s) + m4 s

/-!
## Theorems

### C10 — decoding the empty string
-/

/-- C10: `decode` applied to the empty string succeeds and returns the
empty coordinate sequence: no coordinates are emitted and no error is
raised. -/
theorem c10_decode_empty : decode_geometry [] = some [] := rfl

/-!
### C6 — failure modes of the geometry decoder
-/

/-- A varint read succeeds exactly when the continuation-bit scan does,
with the same remainder, independently of `shift` and `result`. -/
theorem decodeVarint_map_snd :
    ∀ (l : List ℤ) (shift result : ℕ),
      (decodeVarint l shift result).map Prod.snd = varintEnd l := by
  intro l
  induction l with
  | nil => intro s r; rfl
  | cons c tl ih =>
      intro s r
      rw [decodeVarint, varintEnd]
      by_cases hc : (c - 63 : ℤ) < 32
      · rw [if_pos hc, if_pos hc]; rfl
      · rw [if_neg hc, if_neg hc]; exact ih _ _

/-- The decode loop succeeds exactly when the stream splits into
complete varint pairs, whatever the accumulators. -/
theorem decodeLoop_isSome_eq :
    ∀ (fuel : ℕ) (l : List ℤ) (lat lon : ℤ),
      (decodeLoop fuel l lat lon).isSome = pairsCompleteGo fuel l := by
  intro fuel
  induction fuel with
  | zero => intro l lat lon; cases l <;> rfl
  | succ f ih =>
      intro l lat lon
      cases l with
      | nil => rfl
      | cons c tl =>
          simp only [decodeLoop, pairsCompleteGo]
          cases h1 : decodeVarint (c :: tl) 0 0 with
          | none =>
              have hv : varintEnd (c :: tl) = none := by
                rw [← decodeVarint_map_snd (c :: tl) 0 0, h1]; rfl
              rw [hv]
              rfl
          | some pr =>
              obtain ⟨r1, rest1⟩ := pr
              have hv : varintEnd (c :: tl) = some rest1 := by
                rw [← decodeVarint_map_snd (c :: tl) 0 0, h1]; rfl
              rw [hv]
              dsimp only
              cases h2 : decodeVarint rest1 0 0 with
              | none =>
                  have hv2 : varintEnd rest1 = none := by
                    rw [← decodeVarint_map_snd rest1 0 0, h2]; rfl
                  rw [hv2]
                  rfl
              | some pr2 =>
                  obtain ⟨r2, rest2⟩ := pr2
                  have hv2 : varintEnd rest1 = some rest2 := by
                    rw [← decodeVarint_map_snd rest1 0 0, h2]; rfl
                  rw [hv2]
                  dsimp only
                  cases h3 : decodeLoop f rest2 (lat + zigzag r1) (lon + zigzag r2) with
                  | none =>
                      have := ih rest2 (lat + zigzag r1) (lon + zigzag r2)
                      rw [h3] at this
                      simp at this ⊢
                      exact this
                  | some coords =>
                      have := ih rest2 (lat + zigzag r1) (lon + zigzag r2)
                      rw [h3] at this
                      simp at this ⊢
                      exact this

/-- C6 counterexample: the two-character string `"!!"` (codes 33, 33)
consists of characters outside the valid encoding alphabet (codes
63..126), yet `decode` succeeds on it and returns a coordinate — so
"fails ... exactly when ... the string contains a character outside the
valid encoding alphabet" is false on the code. -/
theorem c6_counterexample :
    decode_geometry [33, 33] = some [((1 : ℚ) / 100000, (1 : ℚ) / 100000)] ∧
      (33 : ℤ) < 63 :=
  ⟨by with_unfolding_all rfl, by norm_num⟩

/-- C6 (amended): `decode` performs no alphabet validation at all; it
fails (with an index-out-of-range error) exactly when the character
stream does not split into complete latitude/longitude varint pairs —
i.e. when the string ends mid-integer (continuation bit still set) or
ends after a latitude integer with the longitude integer missing.  Any
other input, including ones with characters outside the valid
alphabet, decodes without error. -/
theorem c6_amended (codes : List ℤ) :
    (decode_geometry codes).isSome = pairsComplete codes := by
  unfold decode_geometry pairsComplete
  exact decodeLoop_isSome_eq codes.length codes 0 0

/-!
### C8 — the cumulative-distance accumulator
-/

/-- C8 counterexample: on the empty coordinate sequence `get_cum_mi`
returns `[0.0]`, of length 1, not the input's length 0. -/
theorem c8_counterexample :
    (get_cum_mi (fun _ _ => 0) []).length = 1 ∧ ([] : List Coord).length = 0 :=
  ⟨rfl, rfl⟩

/-- The tail of the cumulative list has one entry per remaining point. -/
theorem cumFrom_length (dist : ℚ × ℚ → ℚ × ℚ → ℚ) :
    ∀ (rest : List (ℚ × ℚ)) (acc : ℚ) (p : ℚ × ℚ),
      (cumFrom dist acc p rest).length = rest.length := by
  intro rest
  induction rest with
  | nil => intro acc p; rfl
  | cons q tl ih => intro acc p; simp [cumFrom, ih]

/-- With a non-negative distance function the cumulative list is
non-decreasing. -/
theorem cumFrom_chain (dist : ℚ × ℚ → ℚ × ℚ → ℚ) (hd : ∀ a b, 0 ≤ dist a b) :
    ∀ (rest : List (ℚ × ℚ)) (acc : ℚ) (p : ℚ × ℚ),
      List.Chain' (· ≤ ·) (acc :: cumFrom dist acc p rest) := by
  intro rest
  induction rest with
  | nil => intro acc p; simp [cumFrom]
  | cons q tl ih =>
      intro acc p
      simp only [cumFrom]
      rw [List.chain'_cons]
      exact ⟨by linarith [hd p q], ih (acc + dist p q) q⟩

/-- Recurrence of the cumulative list: each entry is the previous one
plus the distance between the corresponding adjacent points. -/
theorem cumFrom_getD (dist : ℚ × ℚ → ℚ × ℚ → ℚ) :
    ∀ (rest : List (ℚ × ℚ)) (acc : ℚ) (p : ℚ × ℚ) (k : ℕ), k < rest.length →
      (acc :: cumFrom dist acc p rest).getD (k + 1) 0 =
        (acc :: cumFrom dist acc p rest).getD k 0 +
          dist ((p :: rest).getD k (0, 0)) ((p :: rest).getD (k + 1) (0, 0)) := by
  intro rest
  induction rest with
  | nil => intro acc p k hk; simp at hk
  | cons q tl ih =>
      intro acc p k hk
      cases k with
      | zero => simp [cumFrom]
      | succ k =>
          have hk2 : k < tl.length := by simpa using hk
          have := ih (acc + dist p q) q k hk2
          simpa [cumFrom] using this

/-- C8 (amended): for every NON-EMPTY coordinate sequence,
`cumulative(coords)` has the same length as `coords`, starts at 0,
satisfies `result[k] = result[k-1] + dist(coords[k-1], coords[k])`
(with `dist` applied to the `[lat, lon]` flips, as the source does),
and — since the great-circle distance collaborator is non-negative —
is non-decreasing.  On the empty sequence the result is `[0.0]`, of
length 1, not 0. -/
theorem c8_amended (dist : ℚ × ℚ → ℚ × ℚ → ℚ) (coords : List Coord)
    (hne : coords ≠ []) (hd : ∀ a b, 0 ≤ dist a b) :
    (get_cum_mi dist coords).length = coords.length ∧
    (get_cum_mi dist coords).head? = some 0 ∧
    (∀ k : ℕ, k + 1 < coords.length →
      (get_cum_mi dist coords).getD (k + 1) 0 =
        (get_cum_mi dist coords).getD k 0 +
          dist ((coords.getD k (0, 0)).2, (coords.getD k (0, 0)).1)
            ((coords.getD (k + 1) (0, 0)).2, (coords.getD (k + 1) (0, 0)).1)) ∧
    List.Chain' (· ≤ ·) (get_cum_mi dist coords) := by
  obtain ⟨c0, rest, rfl⟩ : ∃ c0 rest, coords = c0 :: rest := by
    cases coords with
    | nil => exact absurd rfl hne
    | cons a b => exact ⟨a, b, rfl⟩
  have hmap : (c0 :: rest).map (fun c => (c.2, c.1)) =
      (c0.2, c0.1) :: rest.map (fun c => (c.2, c.1)) := rfl
  have hcum : get_cum_mi dist (c0 :: rest) =
      0 :: cumFrom dist 0 (c0.2, c0.1) (rest.map (fun c => (c.2, c.1))) := by
    simp [get_cum_mi]
  refine ⟨?_, ?_, ?_, ?_⟩
  · rw [hcum]
    simp [cumFrom_length]
  · rw [hcum]
    rfl
  · intro k hk
    rw [hcum]
    have hk2 : k < (rest.map (fun c => (c.2, c.1))).length := by
      simpa using Nat.lt_of_succ_lt_succ hk
    have := cumFrom_getD dist (rest.map (fun c => (c.2, c.1))) 0 (c0.2, c0.1) k hk2
    rw [this]
    have hg : ∀ j : ℕ, j < rest.length + 1 →
        ((c0.2, c0.1) :: rest.map (fun c => (c.2, c.1))).getD j (0, 0) =
          (((c0 :: rest).getD j (0, 0)).2, ((c0 :: rest).getD j (0, 0)).1) := by
      intro j hj
      cases j with
      | zero => rfl
      | succ j =>
          have hj2 : j < rest.length := Nat.lt_of_succ_lt_succ hj
          show (rest.map (fun c => (c.2, c.1))).getD j (0, 0) =
            ((rest.getD j (0, 0)).2, (rest.getD j (0, 0)).1)
          rw [List.getD_eq_getElem?_getD, List.getElem?_map, List.getElem?_eq_getElem hj2,
            List.getD_eq_getElem?_getD, List.getElem?_eq_getElem hj2]
          rfl
    have h1 := hg k (by simpa using Nat.lt_of_succ_lt (by simpa using hk))
    have h2 := hg (k + 1) (by simpa using hk)
    rw [h1, h2]
  · rw [hcum]
    exact cumFrom_chain dist hd _ 0 (c0.2, c0.1)

/-- Witness for the amended C8 at a concrete two-point sequence and the
constant distance function 5. -/
theorem c8_witness :
    ([((1 : ℚ), 2), (3, 4)] ≠ ([] : List Coord)) ∧
    (∀ a b : ℚ × ℚ, 0 ≤ (fun (_ _ : ℚ × ℚ) => (5 : ℚ)) a b) ∧
    ((get_cum_mi (fun _ _ => 5) [((1 : ℚ), 2), (3, 4)]).length =
        ([((1 : ℚ), 2), (3, 4)] : List Coord).length ∧
      (get_cum_mi (fun _ _ => 5) [((1 : ℚ), 2), (3, 4)]).head? = some 0 ∧
      (∀ k : ℕ, k + 1 < ([((1 : ℚ), 2), (3, 4)] : List Coord).length →
        (get_cum_mi (fun _ _ => 5) [((1 : ℚ), 2), (3, 4)]).getD (k + 1) 0 =
          (get_cum_mi (fun _ _ => 5) [((1 : ℚ), 2), (3, 4)]).getD k 0 +
            (fun (_ _ : ℚ × ℚ) => (5 : ℚ))
              ((([((1 : ℚ), 2), (3, 4)] : List Coord).getD k (0, 0)).2,
                (([((1 : ℚ), 2), (3, 4)] : List Coord).getD k (0, 0)).1)
              ((([((1 : ℚ), 2), (3, 4)] : List Coord).getD (k + 1) (0, 0)).2,
                (([((1 : ℚ), 2), (3, 4)] : List Coord).getD (k + 1) (0, 0)).1)) ∧
      List.Chain' (· ≤ ·) (get_cum_mi (fun _ _ => 5) [((1 : ℚ), 2), (3, 4)])) :=
  ⟨by simp, fun _ _ => by norm_num,
    c8_amended (fun _ _ => 5) [((1 : ℚ), 2), (3, 4)] (by simp) (fun _ _ => by norm_num)⟩

/-!
### C3 — the first emitted event
-/

/-- The position update issues no events. -/
theorem updatePos_events (c : SimCtx) (s : SimSt) :
    (updatePos c s).events = s.events := by
  simp only [updatePos]
  split
  · split <;> rfl
  · split <;> rfl

/-- The rest branch only appends events. -/
theorem restPhase_events (s : SimSt) (tsw : ℚ) :
    ∃ l, (restPhase s tsw).events = s.events ++ l := by
  simp only [restPhase, addEvent]
  split
  · exact ⟨_, by rw [List.append_assoc]⟩
  · exact ⟨[], (List.append_nil _).symm⟩

/-- The break branch only appends events. -/
theorem breakPhase_events (s : SimSt) :
    ∃ l, (breakPhase s).1.events = s.events ++ l := by
  simp only [breakPhase, addEvent]
  split
  · exact ⟨_, by rw [List.append_assoc]⟩
  · exact ⟨[], (List.append_nil _).symm⟩

/-- The pickup branch only appends events. -/
theorem pickupPhase_events (c : SimCtx) (s : SimSt) :
    ∃ l, (pickupPhase c s).events = s.events ++ l := by
  simp only [pickupPhase, addEvent]
  split
  · exact ⟨_, by rw [List.append_assoc]⟩
  · exact ⟨[], (List.append_nil _).symm⟩

/-- The fueling block only appends events. -/
theorem fuelCheck_events (s : SimSt) :
    ∃ l, (fuelCheck s).events = s.events ++ l := by
  simp only [fuelCheck, addEvent]
  split
  · exact ⟨_, by rw [List.append_assoc]⟩
  · exact ⟨[], (List.append_nil _).symm⟩

/-- The driving advance only appends events. -/
theorem driveAdvance_events (c : SimCtx) (s : SimSt) (tsw dsb : ℚ) :
    ∃ l, (driveAdvance c s tsw dsb).events = s.events ++ l :=
  ⟨_, rfl⟩

/-- The driving block only appends events. -/
theorem drivePhase_events (c : SimCtx) (s : SimSt) (tsw dsb : ℚ) :
    ∃ l, (drivePhase c s tsw dsb).events = s.events ++ l := by
  simp only [drivePhase]
  split
  · exact ⟨[], (List.append_nil _).symm⟩
  split
  · obtain ⟨l1, hl1⟩ := driveAdvance_events c s tsw dsb
    have hup : (updatePos c (driveAdvance c s tsw dsb)).events = s.events ++ l1 := by
      rw [updatePos_events, hl1]
    split
    · exact ⟨_, hup⟩
    · obtain ⟨l2, hl2⟩ := fuelCheck_events (updatePos c (driveAdvance c s tsw dsb))
      rw [hl2, hup]
      exact ⟨_, List.append_assoc ..⟩
  · exact ⟨[], (List.append_nil _).symm⟩

/-- The dropoff block only appends events. -/
theorem dropoffPhase_events (c : SimCtx) (s : SimSt) :
    ∃ l, (dropoffPhase c s).events = s.events ++ l := by
  simp only [dropoffPhase, addEvent]
  split
  · exact ⟨_, by rw [List.append_assoc]⟩
  · exact ⟨[], (List.append_nil _).symm⟩

/-- One loop iteration only appends events. -/
theorem simStep_events (c : SimCtx) (s : SimSt) :
    ∃ l, (simStep c s).events = s.events ++ l := by
  have chain : ∀ {x y : List Event} {l1 l2 : List Event},
      y = x ++ l1 → ∀ {z : List Event}, z = y ++ l2 → z = x ++ (l1 ++ l2) := by
    intro x y l1 l2 h1 z h2
    rw [h2, h1, List.append_assoc]
  obtain ⟨l1, h1⟩ := restPhase_events s (s.time - s.ws)
  obtain ⟨l2, h2⟩ := breakPhase_events (restPhase s (s.time - s.ws))
  obtain ⟨l3, h3⟩ :=
    pickupPhase_events c (breakPhase (restPhase s (s.time - s.ws))).1
  obtain ⟨l4, h4⟩ :=
    drivePhase_events c (pickupPhase c (breakPhase (restPhase s (s.time - s.ws))).1)
      (s.time - s.ws) (breakPhase (restPhase s (s.time - s.ws))).2
  simp only [simStep]
  split
  · exact ⟨_, chain (chain (chain h1 h2) h3) h4⟩
  · obtain ⟨l5, h5⟩ :=
      dropoffPhase_events c
        (drivePhase c (pickupPhase c (breakPhase (restPhase s (s.time - s.ws))).1)
          (s.time - s.ws) (breakPhase (restPhase s (s.time - s.ws))).2)
    exact ⟨_, chain (chain (chain (chain h1 h2) h3) h4) h5⟩

/-- The head of the event list never changes once set. -/
theorem simRun_events_head (c : SimCtx) (e : Event) :
    ∀ (n : ℕ) (s : SimSt), s.events.head? = some e →
      (simRun c n s).events.head? = some e := by
  intro n
  induction n with
  | zero => intro s h; exact h
  | succ n ih =>
      intro s h
      rw [simRun]
      split
      · apply ih
        obtain ⟨l, hl⟩ := simStep_events c s
        rw [hl, List.head?_append, h]
        rfl
      · exact h

/-- C3 counterexample: on a concrete run of the pipeline the first
emitted event has hour-of-day 75/4 = 18.75 (the hard-coded 18:45 start
time), not 0. -/
theorem c3_counterexample :
    (tripSim
        { distance1Mi := 0, distance2Mi := 400, totalHr := 8,
          fullCoords := [(0, 0), (1, 1)], fullCum := [0, 400] }
        0 (0, 0) (1, 1) (2, 2) 2).map
      (fun s => s.events.head?.map Event.hours) = .ok (some (75 / 4)) ∧
      (75 / 4 : ℚ) ≠ 0 :=
  ⟨by with_unfolding_all rfl, by norm_num⟩

/-- C3 (amended): for every run, the first emitted event is the Start
event with status 3 (OnDutyNotDriving) on day 1, at hour-of-day 75/4
(= 18:45, the hard-coded `start_time`), not at hour 0. -/
theorem c3_amended (c : SimCtx) (cycleHours : ℚ) (cur : ℚ × ℚ)
    (stops0 : List Stop) (n : ℕ) :
    (simRun c n (initSt cycleHours cur stops0)).events.head? =
      some { day := 0, hours := 75 / 4, status := 3, loc := .start } := by
  apply simRun_events_head
  simp only [initSt, addEvent, List.nil_append, List.head?_cons, Option.some.injEq]
  have h1 : ⌊startTimeHours / 24⌋ = 0 := by norm_num [startTimeHours]
  rw [h1]
  norm_num [startTimeHours]

/-!
### C9 — the daily-log renderer
-/

/-- A width-3 line draw contributes its segment to the trace. -/
theorem traceSegments_cons_line3 (x1 y1 x2 y2 : ℚ) (l : List DrawCmd) :
    traceSegments (DrawCmd.line x1 y1 x2 y2 3 :: l) =
      (x1, y1, x2, y2) :: traceSegments l := rfl

/-- A width-0 (grid) line draw contributes nothing to the trace. -/
theorem traceSegments_cons_line0 (x1 y1 x2 y2 : ℚ) (l : List DrawCmd) :
    traceSegments (DrawCmd.line x1 y1 x2 y2 0 :: l) = traceSegments l := rfl

/-- A text draw contributes nothing to the trace. -/
theorem traceSegments_cons_text (x y : ℚ) (tag : TextTag) (l : List DrawCmd) :
    traceSegments (DrawCmd.text x y tag :: l) = traceSegments l := rfl

/-- The trace extraction distributes over concatenation. -/
theorem traceSegments_append (l1 l2 : List DrawCmd) :
    traceSegments (l1 ++ l2) = traceSegments l1 ++ traceSegments l2 :=
  List.filterMap_append ..

/-- The trace loop's width-3 segments, closed by the final horizontal
extension to x = 1150, form exactly the claimed stepped polyline. -/
theorem traceLoop_spec :
    ∀ (rest : List REvent) (prevX : ℚ) (prevStatus : ℕ),
      traceSegments (traceLoop prevX prevStatus rest).1 ++
        [((traceLoop prevX prevStatus rest).2.1,
          specY (traceLoop prevX prevStatus rest).2.2, 1150,
          specY (traceLoop prevX prevStatus rest).2.2)] =
      specStepsFrom prevX prevStatus rest := by
  intro rest
  induction rest with
  | nil =>
      intro px ps
      simp [traceLoop, traceSegments, specStepsFrom]
  | cons e tl ih =>
      intro px ps
      have hx : (50 + e.hours * (1100 / 24)) = specX e := rfl
      have hy : ∀ st : ℕ, (100 + (st : ℚ) * 50 + 50 / 2) = specY st := by
        intro st
        simp [specY]
        ring
      simp only [traceLoop]
      rw [traceSegments_cons_line3, traceSegments_cons_line3, traceSegments_cons_text]
      simp only [List.cons_append, specStepsFrom]
      rw [hx, hy ps, hy e.status]
      rw [ih (specX e) e.status]
/-- C9: for every non-empty event list whose first entry has hour 0,
the renderer produces a 1200x600 canvas; its 4-row grid starts at
vertical offset 100 with 50px rows (row boundary lines at
y = 100 + 50r for r = 0..4, row labels in status order 0..3), spans
x = 50 to x = 1150 with hour gridlines every 1100/24 pixels for hours
0..24, and its width-3 status trace is exactly the claimed stepped
polyline with the final status extended to x = 1150. -/
theorem c9_renderer (day : ℤ) (e0 : REvent) (rest : List REvent)
    (h0 : e0.hours = 0) :
    ∃ out, generate_log_image day (e0 :: rest) = some out ∧
      out.width = 1200 ∧ out.height = 600 ∧
      traceSegments out.cmds = specSteppedTrace (e0 :: rest) ∧
      (∀ r : ℕ, r < 5 →
        DrawCmd.line 50 (100 + (r : ℚ) * 50) 1150 (100 + (r : ℚ) * 50) 0 ∈ out.cmds) ∧
      (∀ r : ℕ, r < 4 →
        DrawCmd.text 10 (100 + (r : ℚ) * 50 + 10) (.rowLabel r) ∈ out.cmds) ∧
      (∀ h : ℕ, h ≤ 24 →
        DrawCmd.line (50 + (h : ℚ) * (1100 / 24)) 100 (50 + (h : ℚ) * (1100 / 24)) 300 0
          ∈ out.cmds) := by
  refine ⟨_, rfl, rfl, rfl, ?_, ?_, ?_, ?_⟩
  · -- the status trace is the claimed stepped polyline
    show traceSegments
        ([DrawCmd.text 50 20 .header, DrawCmd.text 50 40 (.dateLabel day)] ++
          ((List.range 5).map fun (r : ℕ) =>
            DrawCmd.line 50 (100 + (r : ℚ) * 50) 1150 (100 + (r : ℚ) * 50) 0) ++
          ((List.range 4).map fun (r : ℕ) =>
            DrawCmd.text 10 (100 + (r : ℚ) * 50 + 10) (.rowLabel r)) ++
          ((List.range 25).map fun (h : ℕ) =>
            DrawCmd.line (50 + (h : ℚ) * (1100 / 24)) 100 (50 + (h : ℚ) * (1100 / 24))
              (100 + 4 * 50) 0) ++
          ((List.range 24).flatMap fun (h : ℕ) =>
            (List.range 3).flatMap fun (q : ℕ) =>
              [DrawCmd.line (50 + (h : ℚ) * (1100 / 24) + ((q : ℚ) + 1) * (1100 / 24 / 4))
                100 (50 + (h : ℚ) * (1100 / 24) + ((q : ℚ) + 1) * (1100 / 24 / 4)) (100 + 5) 0,
               DrawCmd.line (50 + (h : ℚ) * (1100 / 24) + ((q : ℚ) + 1) * (1100 / 24 / 4))
                (100 + 4 * 50) (50 + (h : ℚ) * (1100 / 24) + ((q : ℚ) + 1) * (1100 / 24 / 4))
                (100 + 4 * 50 - 5) 0]) ++
          ((List.range 25).map fun (h : ℕ) =>
            DrawCmd.text ((if h > 0 then 50 + ((h : ℚ) - 1 / 2) * (1100 / 24) else 50) - 10)
              (100 - 20) (.hourLabel h)) ++
          (traceLoop 50 e0.status rest).1 ++
          [DrawCmd.line (traceLoop 50 e0.status rest).2.1
            (100 + ((traceLoop 50 e0.status rest).2.2 : ℚ) * 50 + 50 / 2) 1150
            (100 + ((traceLoop 50 e0.status rest).2.2 : ℚ) * 50 + 50 / 2) 3]) =
      specSteppedTrace (e0 :: rest)
    rw [traceSegments_append, traceSegments_append, traceSegments_append,
      traceSegments_append, traceSegments_append, traceSegments_append,
      traceSegments_append]
    have hnil1 : traceSegments
        [DrawCmd.text 50 20 .header, DrawCmd.text 50 40 (.dateLabel day)] = [] := rfl
    have hnil2 : ∀ (n : ℕ) (f : ℕ → ℚ) (g : ℕ → ℚ) (f2 : ℕ → ℚ) (g2 : ℕ → ℚ),
        traceSegments ((List.range n).map fun (r : ℕ) =>
          DrawCmd.line (f r) (g r) (f2 r) (g2 r) 0) = [] := by
      intro n f g f2 g2
      rw [traceSegments, List.filterMap_eq_nil]
      intro a ha
      obtain ⟨r, -, rfl⟩ := List.mem_map.mp ha
      rfl
    have hnil3 : ∀ (n : ℕ) (f : ℕ → ℚ) (g : ℕ → ℚ) (t : ℕ → TextTag),
        traceSegments ((List.range n).map fun (r : ℕ) =>
          DrawCmd.text (f r) (g r) (t r)) = [] := by
      intro n f g t
      rw [traceSegments, List.filterMap_eq_nil]
      intro a ha
      obtain ⟨r, -, rfl⟩ := List.mem_map.mp ha
      rfl
    have hnil4 : traceSegments
        ((List.range 24).flatMap fun (h : ℕ) =>
          (List.range 3).flatMap fun (q : ℕ) =>
            [DrawCmd.line (50 + (h : ℚ) * (1100 / 24) + ((q : ℚ) + 1) * (1100 / 24 / 4))
              100 (50 + (h : ℚ) * (1100 / 24) + ((q : ℚ) + 1) * (1100 / 24 / 4)) (100 + 5) 0,
             DrawCmd.line (50 + (h : ℚ) * (1100 / 24) + ((q : ℚ) + 1) * (1100 / 24 / 4))
              (100 + 4 * 50) (50 + (h : ℚ) * (1100 / 24) + ((q : ℚ) + 1) * (1100 / 24 / 4))
              (100 + 4 * 50 - 5) 0]) = [] := by
      rw [traceSegments, List.filterMap_eq_nil]
      intro a ha
      obtain ⟨h, -, ha2⟩ := List.mem_flatMap.mp ha
      obtain ⟨q, -, ha3⟩ := List.mem_flatMap.mp ha2
      simp only [List.mem_cons, List.not_mem_nil, or_false] at ha3
      rcases ha3 with rfl | rfl <;> rfl
    rw [hnil1, hnil2, hnil3, hnil2, hnil4, hnil3]
    simp only [List.nil_append]
    have hy : (100 + ((traceLoop 50 e0.status rest).2.2 : ℚ) * 50 + 50 / 2) =
        specY (traceLoop 50 e0.status rest).2.2 := by
      simp [specY]
      ring
    rw [traceSegments_cons_line3]
    show traceSegments (traceLoop 50 e0.status rest).1 ++
      [((traceLoop 50 e0.status rest).2.1,
        100 + ((traceLoop 50 e0.status rest).2.2 : ℚ) * 50 + 50 / 2, 1150,
        100 + ((traceLoop 50 e0.status rest).2.2 : ℚ) * 50 + 50 / 2)] = _
    rw [hy]
    rw [traceLoop_spec rest 50 e0.status]
    have h50 : specX e0 = 50 := by
      simp [specX, h0]
    show specStepsFrom 50 e0.status rest = specSteppedTrace (e0 :: rest)
    rw [specSteppedTrace, h50]
  · -- row boundary lines
    intro r hr
    refine List.mem_append_left _ (List.mem_append_left _ (List.mem_append_left _
      (List.mem_append_left _ (List.mem_append_left _ (List.mem_append_left _
        (List.mem_append_right _ ?_))))))
    exact List.mem_map.mpr ⟨r, List.mem_range.mpr hr, rfl⟩
  · -- row labels, in status order
    intro r hr
    refine List.mem_append_left _ (List.mem_append_left _ (List.mem_append_left _
      (List.mem_append_left _ (List.mem_append_left _ (List.mem_append_right _ ?_)))))
    exact List.mem_map.mpr ⟨r, List.mem_range.mpr hr, rfl⟩
  · -- hour gridlines
    intro h hh
    rw [show (300 : ℚ) = 100 + 4 * 50 by norm_num]
    refine List.mem_append_left _ (List.mem_append_left _ (List.mem_append_left _
      (List.mem_append_left _ (List.mem_append_right _ ?_))))
    exact List.mem_map.mpr ⟨h, List.mem_range.mpr (by omega), rfl⟩

/-- Witness for C9 at a concrete two-event day. -/
theorem c9_witness :
    ((⟨0, 0, .start⟩ : REvent).hours = 0) ∧
    (∃ out, generate_log_image 0 [(⟨0, 0, .start⟩ : REvent), ⟨4, 2, .driving⟩] = some out ∧
      out.width = 1200 ∧ out.height = 600 ∧
      traceSegments out.cmds =
        specSteppedTrace [(⟨0, 0, .start⟩ : REvent), ⟨4, 2, .driving⟩] ∧
      (∀ r : ℕ, r < 5 →
        DrawCmd.line 50 (100 + (r : ℚ) * 50) 1150 (100 + (r : ℚ) * 50) 0 ∈ out.cmds) ∧
      (∀ r : ℕ, r < 4 →
        DrawCmd.text 10 (100 + (r : ℚ) * 50 + 10) (.rowLabel r) ∈ out.cmds) ∧
      (∀ h : ℕ, h ≤ 24 →
        DrawCmd.line (50 + (h : ℚ) * (1100 / 24)) 100 (50 + (h : ℚ) * (1100 / 24)) 300 0
          ∈ out.cmds)) :=
  ⟨rfl, c9_renderer 0 ⟨0, 0, .start⟩ [⟨4, 2, .driving⟩] rfl⟩

/-!
### C4 — fueling-stop counts
-/

/-- C4 counterexample: a concrete pipeline run with
`totalMiles = 1500` finishes (passing the 1500-mile mark) with TWO
Fueling-kind stops in the produced stop list — the planner's
`Fueling at 1000 mi` stop plus the simulator's own `Fueling` stop —
while `floor(totalMiles / 1000) = 1`. -/
theorem c4_counterexample :
    (tripSim
        { distance1Mi := 500, distance2Mi := 1000, totalHr := 30,
          fullCoords := [(0, 0), (10, 20)], fullCum := [0, 1500] }
        0 (1, 1) (2, 2) (3, 3) 8).map
      (fun s => ((s.stops.filter (fun st => st.kind.isFueling)).length,
        decide (s.mi ≥ 1500))) = .ok (2, true) ∧
      ⌊(1500 : ℚ) / 1000⌋ = 1 :=
  ⟨by with_unfolding_all rfl, by norm_num⟩

/-- Under a cumulative curve that starts at 0 and reaches the
threshold, the planner's bracket scan always finds a bracket whose
left end is strictly below the threshold, so it emits exactly one stop
for the threshold and never divides by zero. -/
theorem fuelFind_finds (cum : List ℚ) (coords : List Coord) (nf : ℚ)
    (hnf : 0 < nf) (hlast : nf ≤ cum.getD (cum.length - 1) 0) :
    ∀ (fuel i : ℕ), 1 ≤ i → i ≤ cum.length → fuel + i = cum.length + 1 →
      cum.getD (i - 1) 0 < nf →
      ∃ st : Stop, fuelFind cum coords nf fuel i = .ok (some st) ∧
        st.kind = .fuelingAt nf := by
  intro fuel
  induction fuel with
  | zero =>
      intro i h1 h2 h3 h4
      exfalso
      omega
  | succ f ih =>
      intro i h1 h2 h3 h4
      rw [fuelFind]
      by_cases hi : i < cum.length
      · rw [if_pos hi]
        by_cases hc : cum.getD i 0 ≥ nf ∧ nf ≥ cum.getD (i - 1) 0
        · rw [if_pos hc]
          have hden : ¬(cum.getD i 0 - cum.getD (i - 1) 0 = 0) := by
            have := hc.1
            intro heq
            have : cum.getD i 0 = cum.getD (i - 1) 0 := by linarith
            linarith
          rw [if_neg hden]
          exact ⟨_, rfl, rfl⟩
        · rw [if_neg hc]
          have hlt : cum.getD i 0 < nf := by
            by_contra hge
            push_neg at hge
            exact hc ⟨hge, le_of_lt h4⟩
          exact ih (i + 1) (by omega) (by omega) (by omega) (by simpa using hlt)
      · exfalso
        have hieq : i = cum.length := by omega
        rw [hieq] at h4
        linarith

/-- One planner stop per remaining threshold: the fueling loop, run
with enough fuel, returns exactly the `Fueling at nf + 1000k mi` stops
for the thresholds `nf + 1000k < totalMi`. -/
theorem fuelLoop_count (cum : List ℚ) (coords : List Coord) (totalMi : ℚ)
    (h0 : cum.head? = some 0) (hlast : totalMi ≤ cum.getD (cum.length - 1) 0) :
    ∀ (fuel : ℕ) (nf : ℚ), 0 < nf → (⌈(totalMi - nf) / 1000⌉).toNat ≤ fuel →
      ∃ stops, fuelLoop cum coords totalMi fuel nf = .ok stops ∧
        stops.map Stop.kind =
          (List.range (⌈(totalMi - nf) / 1000⌉).toNat).map
            (fun (k : ℕ) => StopKind.fuelingAt (nf + 1000 * (k : ℚ))) := by
  intro fuel
  induction fuel with
  | zero =>
      intro nf hnf hcnt
      have hz : (⌈(totalMi - nf) / 1000⌉).toNat = 0 := by omega
      rw [hz]
      exact ⟨[], rfl, rfl⟩
  | succ f ih =>
      intro nf hnf hcnt
      by_cases hlt : nf < totalMi
      · have hcum_ne : cum ≠ [] := by
          intro h
          rw [h] at h0
          exact Option.noConfusion h0
        have hlen : 1 ≤ cum.length := by
          cases cum with
          | nil => exact absurd rfl hcum_ne
          | cons a l => simp
        have hget0 : cum.getD 0 0 = 0 := by
          cases cum with
          | nil => exact absurd rfl hcum_ne
          | cons a l =>
              have : a = 0 := by
                have := h0
                simp at this
                exact this
              simp [this]
        obtain ⟨st, hfind, hkind⟩ :=
          fuelFind_finds cum coords nf hnf (by linarith) cum.length 1
            le_rfl hlen (by omega)
            (by rw [show cum.getD (1 - 1) 0 = 0 from hget0]; exact hnf)
        have hceil_pos : 0 < ⌈(totalMi - nf) / 1000⌉ :=
          Int.ceil_pos.mpr (div_pos (by linarith) (by norm_num))
        have hceil_succ : ⌈(totalMi - nf) / 1000⌉ =
            ⌈(totalMi - (nf + 1000)) / 1000⌉ + 1 := by
          have harg : (totalMi - (nf + 1000)) / 1000 = (totalMi - nf) / 1000 - 1 := by
            ring
          rw [harg]
          rw [show ((1 : ℚ)) = ((1 : ℤ) : ℚ) by norm_num, Int.ceil_sub_int]
          ring
        have hcnt2 : (⌈(totalMi - (nf + 1000)) / 1000⌉).toNat ≤ f := by omega
        obtain ⟨rest, hrest, hmap⟩ := ih (nf + 1000) (by linarith) hcnt2
        rw [fuelLoop, if_pos hlt, hfind, hrest]
        refine ⟨st :: rest, rfl, ?_⟩
        have hn : (⌈(totalMi - nf) / 1000⌉).toNat =
            (⌈(totalMi - (nf + 1000)) / 1000⌉).toNat + 1 := by omega
        rw [hn, List.range_succ_eq_map]
        simp only [List.map_cons, List.map_map, hkind]
        congr 1
        · norm_num
        · rw [hmap]
          apply List.map_congr_left
          intro k _
          simp only [Function.comp_apply]
          congr 1
          push_cast
          ring
      · have hz : (⌈(totalMi - nf) / 1000⌉).toNat = 0 := by
          have h1 : (totalMi - nf) / 1000 ≤ 0 := by
            apply div_nonpos_of_nonpos_of_nonneg
            · linarith
            · norm_num
          have h2 : ⌈(totalMi - nf) / 1000⌉ ≤ 0 := Int.ceil_le.mpr (by exact_mod_cast h1)
          omega
        rw [hz, fuelLoop, if_neg hlt]
        exact ⟨[], rfl, rfl⟩

/-- C4 (amended): the planner places one interpolated `Fueling at N mi`
stop for each multiple `N` of 1000 STRICTLY BELOW `totalMiles` (their
number is `⌈totalMiles/1000⌉ - 1`, which equals `floor(totalMiles/1000)`
only when `totalMiles` is not an exact multiple of 1000), provided the
cumulative curve starts at 0 and reaches `totalMiles`.  The full stop
list of a run additionally holds one simulator `Fueling` stop per
fueling event, so the total number of Fueling-kind stops in the
produced list exceeds `floor(totalMiles/1000)` in general. -/
theorem c4_amended (cum : List ℚ) (coords : List Coord) (totalMi : ℚ)
    (htot : 0 < totalMi) (h0 : cum.head? = some 0)
    (hlast : totalMi ≤ cum.getD (cum.length - 1) 0) :
    ∃ stops, plannerStops cum coords totalMi = .ok stops ∧
      stops.map Stop.kind =
        (List.range (⌈totalMi / 1000⌉ - 1).toNat).map
          (fun (k : ℕ) => StopKind.fuelingAt (1000 * ((k : ℚ) + 1))) ∧
      ((∀ m : ℤ, (m : ℚ) * 1000 ≠ totalMi) →
        ((⌈totalMi / 1000⌉ - 1).toNat : ℤ) = ⌊totalMi / 1000⌋) := by
  have hceil : ⌈(totalMi - 1000) / 1000⌉ = ⌈totalMi / 1000⌉ - 1 := by
    have harg : (totalMi - 1000) / 1000 = totalMi / 1000 - 1 := by ring
    rw [harg, show ((1 : ℚ)) = ((1 : ℤ) : ℚ) by norm_num, Int.ceil_sub_int]
  obtain ⟨stops, hok, hmap⟩ := fuelLoop_count cum coords totalMi h0 hlast
    (⌈(totalMi - 1000) / 1000⌉).toNat 1000 (by norm_num) le_rfl
  refine ⟨stops, hok, ?_, ?_⟩
  · rw [hmap, hceil]
    apply List.map_congr_left
    intro k _
    congr 1
    ring
  · intro hnm
    have hx : ∀ m : ℤ, ((m : ℚ)) ≠ totalMi / 1000 := by
      intro m hm
      exact hnm m (by rw [hm, div_mul_cancel₀ _ (by norm_num : (1000 : ℚ) ≠ 0)])
    have hcf : ⌈totalMi / 1000⌉ = ⌊totalMi / 1000⌋ + 1 := by
      rcases lt_or_ge (⌊totalMi / 1000⌋ : ℤ) ⌈totalMi / 1000⌉ with h | h
      · have h2 := Int.ceil_le_floor_add_one (totalMi / 1000)
        omega
      · exfalso
        have h3 := Int.le_ceil (totalMi / 1000)
        have h4 := Int.floor_le (totalMi / 1000)
        have h5 : ((⌈totalMi / 1000⌉ : ℤ) : ℚ) ≤ ((⌊totalMi / 1000⌋ : ℤ) : ℚ) := by
          exact_mod_cast h
        exact hx ⌊totalMi / 1000⌋ (le_antisymm h4 (le_trans h3 h5))
    have hfl : 0 ≤ ⌊totalMi / 1000⌋ := Int.floor_nonneg.mpr (by positivity)
    rw [hcf]
    omega

/-- Witness for the amended C4: `totalMiles = 2500` over the curve
`[0, 2500]` — two planner stops, at 1000 and 2000. -/
theorem c4_witness :
    (0 < (2500 : ℚ)) ∧ ([(0 : ℚ), 2500].head? = some 0) ∧
    ((2500 : ℚ) ≤ [(0 : ℚ), 2500].getD ([(0 : ℚ), 2500].length - 1) 0) ∧
    (∃ stops, plannerStops [(0 : ℚ), 2500] [(0, 0), (1, 1)] 2500 = .ok stops ∧
      stops.map Stop.kind =
        (List.range (⌈(2500 : ℚ) / 1000⌉ - 1).toNat).map
          (fun (k : ℕ) => StopKind.fuelingAt (1000 * ((k : ℚ) + 1))) ∧
      ((∀ m : ℤ, (m : ℚ) * 1000 ≠ (2500 : ℚ)) →
        ((⌈(2500 : ℚ) / 1000⌉ - 1).toNat : ℤ) = ⌊(2500 : ℚ) / 1000⌋)) :=
  ⟨by norm_num, rfl, le_refl _,
    c4_amended [0, 2500] [(0, 0), (1, 1)] 2500 (by norm_num) rfl (le_refl _)⟩

/-!
### The simulator invariant

Lemmas establishing `SimInv` at initialization and across one loop
iteration, plus the supporting facts about the position cursor.
-/

/-- With positive total distance and duration the average speed is
positive. -/
theorem avgMph_pos (c : SimCtx) (h : c.ok) : 0 < c.avgMph := by
  rw [SimCtx.avgMph, if_pos h.hr_pos]
  exact div_pos h.total_pos h.hr_pos

/-- The cursor advance preserves `cum[i] < target`. -/
theorem advanceIdx_lt (cum : List ℚ) (target : ℚ) :
    ∀ (fuel i : ℕ), cum.getD i 0 < target →
      cum.getD (advanceIdx cum target fuel i) 0 < target := by
  intro fuel
  induction fuel with
  | zero => intro i h; exact h
  | succ f ih =>
      intro i h
      rw [advanceIdx]
      split
      · next hc => exact ih (i + 1) hc.2
      · exact h

/-- With fuel at least `cum.length - i` the cursor advance stops only
when the loop guard fails. -/
theorem advanceIdx_exit (cum : List ℚ) (target : ℚ) :
    ∀ (fuel i : ℕ), cum.length ≤ fuel + i →
      ¬(advanceIdx cum target fuel i < cum.length - 1 ∧
        cum.getD (advanceIdx cum target fuel i + 1) 0 < target) := by
  intro fuel
  induction fuel with
  | zero =>
      intro i hf
      rw [advanceIdx]
      intro hcon
      omega
  | succ f ih =>
      intro i hf
      rw [advanceIdx]
      split
      · next hc => exact ih (i + 1) (by omega)
      · next hc => exact hc

/-- The position update only touches the cursor, the live position and
the error flag. -/
theorem updatePos_shape (c : SimCtx) (s : SimSt) :
    ∃ i2 la lo e2, updatePos c s =
      { s with i := i2, lat := la, lon := lo, err := e2 } := by
  simp only [updatePos]
  split
  · split
    · exact ⟨_, _, _, _, rfl⟩
    · exact ⟨_, _, _, _, rfl⟩
  · split
    · exact ⟨_, _, _, _, rfl⟩
    · exact ⟨_, _, _, _, rfl⟩

/-- Under the cursor invariant the position update raises nothing and
re-establishes the invariant: the interpolation denominator is the gap
`cum[i+1] - cum[i] ≥ target - cum[i] > 0`. -/
theorem updatePos_err_pos (c : SimCtx) (s : SimSt)
    (hcoords : c.fullCoords ≠ [])
    (hbase : c.fullCum.getD s.i 0 < s.mi) :
    (updatePos c s).err = s.err ∧
      c.fullCum.getD (updatePos c s).i 0 < s.mi ∧
      (updatePos c s).i = advanceIdx c.fullCum s.mi c.fullCum.length s.i := by
  have hlt := advanceIdx_lt c.fullCum s.mi c.fullCum.length s.i hbase
  have hexit := advanceIdx_exit c.fullCum s.mi c.fullCum.length s.i (by omega)
  simp only [updatePos]
  split
  · next hin =>
      have hup : ¬(c.fullCum.getD (advanceIdx c.fullCum s.mi c.fullCum.length s.i + 1) 0
          < s.mi) := fun hc => hexit ⟨hin, hc⟩
      push_neg at hup
      have hden : ¬(c.fullCum.getD (advanceIdx c.fullCum s.mi c.fullCum.length s.i + 1) 0 -
          c.fullCum.getD (advanceIdx c.fullCum s.mi c.fullCum.length s.i) 0 = 0) := by
        intro h0
        have := hlt
        linarith
      rw [if_neg hden]
      exact ⟨rfl, hlt, rfl⟩
  · cases hc : c.fullCoords.getLast? with
    | none =>
        exfalso
        exact hcoords (List.getLast?_eq_none_iff.mp hc)
    | some last => exact ⟨rfl, hlt, rfl⟩

/-- Explicit form of a fired rest branch. -/
theorem restPhase_pos_eq (s : SimSt) (tsw : ℚ)
    (h : s.cum ≥ 11 ∨ tsw ≥ 14 ∨ s.c8 ≥ 70) :
    ∃ ev st, restPhase s tsw = { s with
      time := s.time + (if s.c8 < 70 then 10 else 34),
      ws := s.time + (if s.c8 < 70 then 10 else 34),
      lbe := s.time + (if s.c8 < 70 then 10 else 34),
      cum := 0, cumOn := 0,
      c8 := max 0 (s.c8 -
        (if (if s.c8 < 70 then (10 : ℚ) else 34) = 34 then 34 else 0)),
      events := ev, stops := st, cumAtLbe := 0 } := by
  rw [restPhase, if_pos h]
  exact ⟨_, _, rfl⟩

/-- A rest branch that does not fire leaves the state unchanged. -/
theorem restPhase_neg_eq (s : SimSt) (tsw : ℚ)
    (h : ¬(s.cum ≥ 11 ∨ tsw ≥ 14 ∨ s.c8 ≥ 70)) :
    restPhase s tsw = s := by
  rw [restPhase, if_neg h]

/-- Explicit form of a fired break branch. -/
theorem breakPhase_pos_eq (s : SimSt) (h : dsbOf s ≥ 8) :
    ∃ ev st, breakPhase s = ({ s with
      time := s.time + 1 / 2,
      lbe := s.time + 1 / 2,
      events := ev, stops := st, cumAtLbe := s.cum }, 0) := by
  rw [breakPhase]
  dsimp only
  rw [if_pos h]
  exact ⟨_, _, rfl⟩

/-- A break branch that does not fire leaves the state unchanged and
returns the recomputed `drive_since_break`. -/
theorem breakPhase_neg_eq (s : SimSt) (h : ¬(dsbOf s ≥ 8)) :
    breakPhase s = (s, dsbOf s) := by
  rw [breakPhase]
  dsimp only
  rw [if_neg h]

/-- Explicit form of a fired pickup branch. -/
theorem pickupPhase_pos_eq (c : SimCtx) (s : SimSt)
    (h : s.toPickup ∧ s.mi ≥ c.distance1Mi) :
    ∃ ev, pickupPhase c s = { s with
      time := s.time + 1, cumOn := s.cumOn + 1, c8 := s.c8 + 1,
      events := ev, toPickup := false } := by
  rw [pickupPhase, if_pos h]
  exact ⟨_, rfl⟩

/-- A pickup branch that does not fire leaves the state unchanged. -/
theorem pickupPhase_neg_eq (c : SimCtx) (s : SimSt)
    (h : ¬(s.toPickup ∧ s.mi ≥ c.distance1Mi)) :
    pickupPhase c s = s := by
  rw [pickupPhase, if_neg h]

/-- The computed driving distance never exceeds any of the four caps
(after conversion to miles) nor the fueling headroom. -/
theorem maxDriveOf_le (c : SimCtx) (s : SimSt) (tsw dsb : ℚ)
    (hv : 0 < c.avgMph) (hnf : s.mi < s.nf) :
    maxDriveOf c s tsw dsb ≤ (11 - s.cum) * c.avgMph ∧
    maxDriveOf c s tsw dsb ≤ (14 - tsw) * c.avgMph ∧
    maxDriveOf c s tsw dsb ≤ c.totalMi - s.mi ∧
    s.mi + maxDriveOf c s tsw dsb ≤ s.nf ∧
    (dsb < 8 → maxDriveOf c s tsw dsb ≤ (8 - dsb) * c.avgMph) := by
  simp only [maxDriveOf]
  set a : ℚ := if dsb < 8 then 8 - dsb else 0 with ha
  set md : ℚ := min (min a (11 - s.cum)) (min (14 - tsw) ((c.totalMi - s.mi) / c.avgMph)) *
    c.avgMph with hmd
  have h1 : md ≤ (11 - s.cum) * c.avgMph := by
    apply mul_le_mul_of_nonneg_right _ (le_of_lt hv)
    exact le_trans (min_le_left _ _) (min_le_right _ _)
  have h2 : md ≤ (14 - tsw) * c.avgMph := by
    apply mul_le_mul_of_nonneg_right _ (le_of_lt hv)
    exact le_trans (min_le_right _ _) (min_le_left _ _)
  have h3 : md ≤ c.totalMi - s.mi := by
    have : md ≤ ((c.totalMi - s.mi) / c.avgMph) * c.avgMph :=
      mul_le_mul_of_nonneg_right
        (le_trans (min_le_right _ _) (min_le_right _ _)) (le_of_lt hv)
    rwa [div_mul_cancel₀ _ (ne_of_gt hv)] at this
  have h5 : dsb < 8 → md ≤ (8 - dsb) * c.avgMph := by
    intro h8
    apply mul_le_mul_of_nonneg_right _ (le_of_lt hv)
    rw [ha, if_pos h8]
    exact le_trans (min_le_left _ _) (min_le_left _ _)
  split
  · next hcap => exact ⟨by linarith, by linarith, by linarith, by linarith,
      fun h8 => by linarith [h5 h8]⟩
  · next hcap =>
      push_neg at hcap
      exact ⟨h1, h2, h3, hcap, h5⟩

/-- The head of the cumulative curve is 0. -/
theorem getD_zero_of_head (l : List ℚ) (h : l.head? = some 0) :
    l.getD 0 0 = 0 := by
  cases l with
  | nil => exact Option.noConfusion h
  | cons a tl =>
      have : a = 0 := by simpa using h
      simp [this]

/-- The rest branch preserves the loop invariant. -/
theorem restPhase_inv (c : SimCtx) (s : SimSt) (tsw : ℚ) (hs : SimInv c s) :
    SimInv c (restPhase s tsw) := by
  by_cases h : s.cum ≥ 11 ∨ tsw ≥ 14 ∨ s.c8 ≥ 70
  · obtain ⟨ev, st, heq⟩ := restPhase_pos_eq s tsw h
    rw [heq]
    exact {
      cum_le := by norm_num
      cum_nn := le_refl 0
      cum_wall := by simp
      ws_lbe := le_refl _
      branch := Or.inl ⟨rfl, rfl, by norm_num⟩
      mi_nn := hs.mi_nn
      mi_nf := hs.mi_nf
      mi_total := hs.mi_total
      nf_ge := hs.nf_ge
      nf_le := hs.nf_le
      pos_inv := hs.pos_inv
      err_none := hs.err_none
      gday := hs.gday
      gbrk := hs.gbrk
      gstale := hs.gstale }
  · rw [restPhase_neg_eq s tsw h]
    exact hs

/-- The break branch preserves the loop invariant; the returned
`drive_since_break` is below 8, and equals `cum_drive_day` whenever no
break has yet occurred in the current window. -/
theorem breakPhase_inv (c : SimCtx) (s : SimSt) (hs : SimInv c s) :
    SimInv c (breakPhase s).1 ∧ (breakPhase s).2 < 8 ∧
      ((breakPhase s).1.lbe = (breakPhase s).1.ws →
        (breakPhase s).2 = (breakPhase s).1.cum) := by
  by_cases h : dsbOf s ≥ 8
  · have hb1 : s.lbe = s.ws ∧ s.cumAtLbe = 0 ∧ s.cum ≤ 8 := by
      rcases hs.branch with hb | hb
      · exact hb
      · exfalso
        have hlt : s.ws < s.lbe := by linarith [hb.1, hb.2.1]
        have hd : dsbOf s = s.cum - (s.lbe - s.ws) := by rw [dsbOf, if_pos hlt]
        have h8 : s.cum - (s.lbe - s.ws) ≥ 8 := hd ▸ h
        have := hs.cum_le
        linarith [hb.1, hb.2.1]
    have hdeq : dsbOf s = s.cum := by
      rw [dsbOf, if_neg (by rw [hb1.1]; exact lt_irrefl _)]
    have hcum8 : s.cum = 8 := le_antisymm hb1.2.2 (by rw [← hdeq]; exact h)
    obtain ⟨ev, st, heq⟩ := breakPhase_pos_eq s h
    rw [heq]
    have hwall := hs.cum_wall
    have hnn := hs.cum_nn
    refine ⟨?_, by norm_num, ?_⟩
    · exact {
        cum_le := hs.cum_le
        cum_nn := hs.cum_nn
        cum_wall := by dsimp only; linarith
        ws_lbe := by dsimp only; linarith
        branch := Or.inr ⟨by dsimp only; linarith, by dsimp only; linarith, le_refl _⟩
        mi_nn := hs.mi_nn
        mi_nf := hs.mi_nf
        mi_total := hs.mi_total
        nf_ge := hs.nf_ge
        nf_le := hs.nf_le
        pos_inv := hs.pos_inv
        err_none := hs.err_none
        gday := hs.gday
        gbrk := hs.gbrk
        gstale := hs.gstale }
    · intro habs
      exfalso
      dsimp only at habs
      linarith [habs ▸ le_refl (s.time + 1 / 2)]
  · rw [breakPhase_neg_eq s h]
    push_neg at h
    refine ⟨hs, h, ?_⟩
    intro hlw
    rw [dsbOf, if_neg (by rw [hlw]; exact lt_irrefl _)]

/-- The pickup branch changes only the clock, the on-duty
accumulators, the leg flag and the event list. -/
theorem pickupPhase_keeps (c : SimCtx) (s : SimSt) :
    (pickupPhase c s).lbe = s.lbe ∧ (pickupPhase c s).ws = s.ws ∧
      (pickupPhase c s).cum = s.cum := by
  by_cases h : s.toPickup ∧ s.mi ≥ c.distance1Mi
  · obtain ⟨ev, heq⟩ := pickupPhase_pos_eq c s h
    rw [heq]
    exact ⟨rfl, rfl, rfl⟩
  · rw [pickupPhase_neg_eq c s h]
    exact ⟨rfl, rfl, rfl⟩

/-- The pickup branch preserves the loop invariant. -/
theorem pickupPhase_inv (c : SimCtx) (s : SimSt) (hs : SimInv c s) :
    SimInv c (pickupPhase c s) := by
  by_cases h : s.toPickup ∧ s.mi ≥ c.distance1Mi
  · obtain ⟨ev, heq⟩ := pickupPhase_pos_eq c s h
    rw [heq]
    exact {
      cum_le := hs.cum_le
      cum_nn := hs.cum_nn
      cum_wall := by dsimp only; linarith [hs.cum_wall]
      ws_lbe := hs.ws_lbe
      branch := hs.branch
      mi_nn := hs.mi_nn
      mi_nf := hs.mi_nf
      mi_total := hs.mi_total
      nf_ge := hs.nf_ge
      nf_le := hs.nf_le
      pos_inv := hs.pos_inv
      err_none := hs.err_none
      gday := hs.gday
      gbrk := hs.gbrk
      gstale := hs.gstale }
  · rw [pickupPhase_neg_eq c s h]
    exact hs

/-- Explicit form of the driving advance. -/
theorem driveAdvance_eq (c : SimCtx) (s : SimSt) (tsw dsb : ℚ) :
    ∃ ev, driveAdvance c s tsw dsb = { s with
      time := s.time + maxDriveOf c s tsw dsb / c.avgMph,
      mi := s.mi + maxDriveOf c s tsw dsb,
      cum := s.cum + maxDriveOf c s tsw dsb / c.avgMph,
      cumOn := s.cumOn + maxDriveOf c s tsw dsb / c.avgMph,
      c8 := s.c8 + maxDriveOf c s tsw dsb / c.avgMph,
      events := ev,
      gDay := s.gDay || decide (s.cum + maxDriveOf c s tsw dsb / c.avgMph > 11),
      gWin := s.gWin || decide (s.time + maxDriveOf c s tsw dsb / c.avgMph - s.ws > 14),
      gBrk := s.gBrk || decide (s.cum + maxDriveOf c s tsw dsb / c.avgMph - s.cumAtLbe > 8),
      gStale := s.gStale ||
        decide (maxDriveOf c s tsw dsb / c.avgMph > 14 - tsw) } :=
  ⟨_, rfl⟩

/-- Explicit form of a fired fueling block. -/
theorem fuelCheck_pos_eq (s : SimSt) (h : s.mi ≥ s.nf) :
    ∃ ev st, fuelCheck s = { s with
      time := s.time + 1 / 2, cumOn := s.cumOn + 1 / 2, c8 := s.c8 + 1 / 2,
      nf := s.nf + 1000, events := ev, stops := st } := by
  rw [fuelCheck, if_pos h]
  exact ⟨_, _, rfl⟩

/-- A fueling block that does not fire leaves the state unchanged. -/
theorem fuelCheck_neg_eq (s : SimSt) (h : ¬(s.mi ≥ s.nf)) : fuelCheck s = s := by
  rw [fuelCheck, if_neg h]

/-- The driving block preserves the loop invariant: each span respects
the daily/window/break caps, the fueling cap keeps `mi ≤ next_fuel`
(bumping the threshold when it is reached), the position update raises
nothing, and all ghost monitors except the window monitor stay false. -/
theorem drivePhase_inv (c : SimCtx) (s : SimSt) (tsw dsb : ℚ) (hok : c.ok)
    (hs : SimInv c s) (hdsb : dsb < 8) (hd1 : s.lbe = s.ws → dsb = s.cum) :
    SimInv c (drivePhase c s tsw dsb) := by
  have hv := avgMph_pos c hok
  rw [drivePhase, if_neg (ne_of_gt hv)]
  obtain ⟨hb1, hb2, hb3, hb4, hb5⟩ := maxDriveOf_le c s tsw dsb hv hs.mi_nf
  by_cases hmd : maxDriveOf c s tsw dsb > 0
  case neg =>
    rw [if_neg hmd]
    exact hs
  case pos =>
    rw [if_pos hmd]
    have hspan_pos : 0 < maxDriveOf c s tsw dsb / c.avgMph :=
      div_pos hmd hv
    have hspan_day : maxDriveOf c s tsw dsb / c.avgMph ≤ 11 - s.cum :=
      (div_le_iff₀ hv).mpr (by linarith)
    have hspan_win : maxDriveOf c s tsw dsb / c.avgMph ≤ 14 - tsw :=
      (div_le_iff₀ hv).mpr (by linarith)
    have hspan_brk : maxDriveOf c s tsw dsb / c.avgMph ≤ 8 - dsb :=
      (div_le_iff₀ hv).mpr (by linarith [hb5 hdsb])
    have hgbrk : ¬(s.cum + maxDriveOf c s tsw dsb / c.avgMph - s.cumAtLbe > 8) := by
      rcases hs.branch with hb | hb
      · have hde : dsb = s.cum := hd1 hb.1
        rw [hb.2.1]
        linarith
      · linarith [hb.2.1, hb.2.2]
    obtain ⟨ev, hA⟩ := driveAdvance_eq c s tsw dsb
    have hAbase : c.fullCum.getD (driveAdvance c s tsw dsb).i 0 <
        (driveAdvance c s tsw dsb).mi := by
      rw [hA]
      show c.fullCum.getD s.i 0 < s.mi + maxDriveOf c s tsw dsb
      rcases hs.pos_inv with ⟨hm0, hi0⟩ | hlt
      · rw [hi0, getD_zero_of_head c.fullCum hok.cum_head, hm0]
        linarith
      · linarith
    obtain ⟨hUerr, hUpos, hUidx⟩ :=
      updatePos_err_pos c (driveAdvance c s tsw dsb) hok.coords_ne hAbase
    obtain ⟨i2, la, lo, e2, hUeq⟩ := updatePos_shape c (driveAdvance c s tsw dsb)
    have hUerr2 : (updatePos c (driveAdvance c s tsw dsb)).err = none := by
      rw [hUerr, hA]
      exact hs.err_none
    have he2 : e2 = none := by
      rw [hUeq] at hUerr2
      exact hUerr2
    have hUpos2 : c.fullCum.getD i2 0 < s.mi + maxDriveOf c s tsw dsb := by
      have h1 : c.fullCum.getD (updatePos c (driveAdvance c s tsw dsb)).i 0 <
          (driveAdvance c s tsw dsb).mi := hUpos
      rw [hUeq, hA] at h1
      exact h1
    rw [if_neg (by rw [hUerr2]; simp)]
    by_cases hfuel : (updatePos c (driveAdvance c s tsw dsb)).mi ≥
        (updatePos c (driveAdvance c s tsw dsb)).nf
    · have hmi_eq_nf : s.mi + maxDriveOf c s tsw dsb = s.nf := by
        have h1 := hfuel
        rw [hUeq, hA] at h1
        have h2 : s.mi + maxDriveOf c s tsw dsb ≥ s.nf := h1
        linarith
      obtain ⟨ev2, st2, hF⟩ := fuelCheck_pos_eq _ hfuel
      rw [hF, hUeq, hA]
      exact {
        cum_le := by
          show s.cum + maxDriveOf c s tsw dsb / c.avgMph ≤ 11
          linarith
        cum_nn := by
          show 0 ≤ s.cum + maxDriveOf c s tsw dsb / c.avgMph
          linarith [hs.cum_nn]
        cum_wall := by
          show s.cum + maxDriveOf c s tsw dsb / c.avgMph ≤
            s.time + maxDriveOf c s tsw dsb / c.avgMph + 1 / 2 - s.ws
          linarith [hs.cum_wall]
        ws_lbe := hs.ws_lbe
        branch := by
          rcases hs.branch with hb | hb
          · refine Or.inl ⟨hb.1, hb.2.1, ?_⟩
            show s.cum + maxDriveOf c s tsw dsb / c.avgMph ≤ 8
            have hde : dsb = s.cum := hd1 hb.1
            linarith
          · refine Or.inr ⟨hb.1, hb.2.1, ?_⟩
            show s.cumAtLbe ≤ s.cum + maxDriveOf c s tsw dsb / c.avgMph
            linarith [hb.2.2]
        mi_nn := by
          show 0 ≤ s.mi + maxDriveOf c s tsw dsb
          linarith [hs.mi_nn]
        mi_nf := by
          show s.mi + maxDriveOf c s tsw dsb < s.nf + 1000
          linarith
        mi_total := by
          show s.mi + maxDriveOf c s tsw dsb ≤ c.totalMi
          linarith
        nf_ge := by
          show (1000 : ℚ) ≤ s.nf + 1000
          linarith [hs.nf_ge]
        nf_le := by
          show s.nf + 1000 ≤ c.totalMi + 1000
          have h3 : s.mi + maxDriveOf c s tsw dsb ≤ c.totalMi := by linarith
          linarith
        pos_inv := Or.inr (by
          show c.fullCum.getD i2 0 < s.mi + maxDriveOf c s tsw dsb
          exact hUpos2)
        err_none := he2
        gday := by
          show (s.gDay || decide (s.cum + maxDriveOf c s tsw dsb / c.avgMph > 11)) = false
          rw [hs.gday, Bool.false_or, decide_eq_false_iff_not]
          linarith
        gbrk := by
          show (s.gBrk ||
            decide (s.cum + maxDriveOf c s tsw dsb / c.avgMph - s.cumAtLbe > 8)) = false
          rw [hs.gbrk, Bool.false_or, decide_eq_false_iff_not]
          exact hgbrk
        gstale := by
          show (s.gStale || decide (maxDriveOf c s tsw dsb / c.avgMph > 14 - tsw)) = false
          rw [hs.gstale, Bool.false_or, decide_eq_false_iff_not]
          linarith }
    · have hmi_lt_nf : s.mi + maxDriveOf c s tsw dsb < s.nf := by
        have h1 := hfuel
        rw [hUeq, hA] at h1
        have h2 : ¬(s.mi + maxDriveOf c s tsw dsb ≥ s.nf) := h1
        linarith [lt_of_not_ge h2]
      rw [fuelCheck_neg_eq _ hfuel, hUeq, hA]
      exact {
        cum_le := by
          show s.cum + maxDriveOf c s tsw dsb / c.avgMph ≤ 11
          linarith
        cum_nn := by
          show 0 ≤ s.cum + maxDriveOf c s tsw dsb / c.avgMph
          linarith [hs.cum_nn]
        cum_wall := by
          show s.cum + maxDriveOf c s tsw dsb / c.avgMph ≤
            s.time + maxDriveOf c s tsw dsb / c.avgMph - s.ws
          linarith [hs.cum_wall]
        ws_lbe := hs.ws_lbe
        branch := by
          rcases hs.branch with hb | hb
          · refine Or.inl ⟨hb.1, hb.2.1, ?_⟩
            show s.cum + maxDriveOf c s tsw dsb / c.avgMph ≤ 8
            have hde : dsb = s.cum := hd1 hb.1
            linarith
          · refine Or.inr ⟨hb.1, hb.2.1, ?_⟩
            show s.cumAtLbe ≤ s.cum + maxDriveOf c s tsw dsb / c.avgMph
            linarith [hb.2.2]
        mi_nn := by
          show 0 ≤ s.mi + maxDriveOf c s tsw dsb
          linarith [hs.mi_nn]
        mi_nf := hmi_lt_nf
        mi_total := by
          show s.mi + maxDriveOf c s tsw dsb ≤ c.totalMi
          linarith
        nf_ge := hs.nf_ge
        nf_le := hs.nf_le
        pos_inv := Or.inr (by
          show c.fullCum.getD i2 0 < s.mi + maxDriveOf c s tsw dsb
          exact hUpos2)
        err_none := he2
        gday := by
          show (s.gDay || decide (s.cum + maxDriveOf c s tsw dsb / c.avgMph > 11)) = false
          rw [hs.gday, Bool.false_or, decide_eq_false_iff_not]
          linarith
        gbrk := by
          show (s.gBrk ||
            decide (s.cum + maxDriveOf c s tsw dsb / c.avgMph - s.cumAtLbe > 8)) = false
          rw [hs.gbrk, Bool.false_or, decide_eq_false_iff_not]
          exact hgbrk
        gstale := by
          show (s.gStale || decide (maxDriveOf c s tsw dsb / c.avgMph > 14 - tsw)) = false
          rw [hs.gstale, Bool.false_or, decide_eq_false_iff_not]
          linarith }

/-- Explicit form of a fired trip-completion block. -/
theorem dropoffPhase_pos_eq (c : SimCtx) (s : SimSt) (h : s.mi ≥ c.totalMi) :
    ∃ ev, dropoffPhase c s = { s with
      time := s.time + 1, cumOn := s.cumOn + 1, c8 := s.c8 + 1,
      events := ev } := by
  rw [dropoffPhase, if_pos h]
  exact ⟨_, rfl⟩

/-- A trip-completion block that does not fire leaves the state unchanged. -/
theorem dropoffPhase_neg_eq (c : SimCtx) (s : SimSt) (h : ¬(s.mi ≥ c.totalMi)) :
    dropoffPhase c s = s := by
  rw [dropoffPhase, if_neg h]

/-- The trip-completion block preserves the loop invariant. -/
theorem dropoffPhase_inv (c : SimCtx) (s : SimSt) (hs : SimInv c s) :
    SimInv c (dropoffPhase c s) := by
  by_cases h : s.mi ≥ c.totalMi
  · obtain ⟨ev, heq⟩ := dropoffPhase_pos_eq c s h
    rw [heq]
    exact {
      cum_le := hs.cum_le
      cum_nn := hs.cum_nn
      cum_wall := by
        show s.cum ≤ s.time + 1 - s.ws
        linarith [hs.cum_wall]
      ws_lbe := hs.ws_lbe
      branch := hs.branch
      mi_nn := hs.mi_nn
      mi_nf := hs.mi_nf
      mi_total := hs.mi_total
      nf_ge := hs.nf_ge
      nf_le := hs.nf_le
      pos_inv := hs.pos_inv
      err_none := hs.err_none
      gday := hs.gday
      gbrk := hs.gbrk
      gstale := hs.gstale }
  · rw [dropoffPhase_neg_eq c s h]
    exact hs

/-- One full loop iteration preserves the invariant. -/
theorem simStep_inv (c : SimCtx) (s : SimSt) (hok : c.ok) (hs : SimInv c s) :
    SimInv c (simStep c s) := by
  simp only [simStep]
  have h1 := restPhase_inv c s (s.time - s.ws) hs
  obtain ⟨h2, h2b, h2c⟩ := breakPhase_inv c (restPhase s (s.time - s.ws)) h1
  have h3 := pickupPhase_inv c (breakPhase (restPhase s (s.time - s.ws))).1 h2
  obtain ⟨hk1, hk2, hk3⟩ :=
    pickupPhase_keeps c (breakPhase (restPhase s (s.time - s.ws))).1
  have h4 := drivePhase_inv c (pickupPhase c (breakPhase (restPhase s (s.time - s.ws))).1)
    (s.time - s.ws) (breakPhase (restPhase s (s.time - s.ws))).2 hok h3 h2b
    (by
      intro h
      rw [hk1, hk2] at h
      rw [hk3]
      exact h2c h)
  rw [if_neg (by rw [h4.err_none]; simp)]
  exact dropoffPhase_inv c _ h4

/-- Any number of loop iterations preserves the invariant. -/
theorem simRun_inv (c : SimCtx) (hok : c.ok) :
    ∀ (n : ℕ) (s : SimSt), SimInv c s → SimInv c (simRun c n s)
  | 0, _, hs => hs
  | n + 1, s, hs => by
    rw [simRun]
    by_cases h : s.mi < c.totalMi ∧ s.err = none
    · rw [if_pos h]
      exact simRun_inv c hok n _ (simStep_inv c s hok hs)
    · rw [if_neg h]
      exact hs

/-- The invariant holds at the start of the loop. -/
theorem simInv_init (c : SimCtx) (hok : c.ok) (cycleHours : ℚ)
    (cur : ℚ × ℚ) (stops0 : List Stop) :
    SimInv c (initSt cycleHours cur stops0) :=
  { cum_le := by show (0 : ℚ) ≤ 11; norm_num
    cum_nn := le_refl 0
    cum_wall := by show (0 : ℚ) ≤ startTimeHours - startTimeHours; norm_num
    ws_lbe := le_refl startTimeHours
    branch := Or.inl ⟨rfl, rfl, by show (0 : ℚ) ≤ 8; norm_num⟩
    mi_nn := le_refl 0
    mi_nf := by show (0 : ℚ) < 1000; norm_num
    mi_total := le_of_lt hok.total_pos
    nf_ge := le_refl 1000
    nf_le := by show (1000 : ℚ) ≤ c.totalMi + 1000; linarith [hok.total_pos]
    pos_inv := Or.inl ⟨rfl, rfl⟩
    err_none := rfl
    gday := rfl
    gbrk := rfl
    gstale := rfl }

/-- C1: the simulator's duty-cycle loop enforces the 11-hour daily
driving cap, the 8-hour cap between 30-minute breaks, and a fresh
14-hour on-duty window — but NOT the 14-hour window as claimed: the
window term uses `time_since_window` captured before the iteration's
rest/break/pickup dwells, so a span can end past `window_start + 14h`.
Amended: on every run of the trip simulation from well-formed inputs,
the daily-cap monitor, break-cap monitor and stale-window monitor
(which fires only when a span exceeds even the stale window allowance)
all stay false. -/
theorem c1_amended (c : SimCtx) (cycleHours : ℚ)
    (cur pickup dropoff : ℚ × ℚ) (n : ℕ) (hok : c.ok) (s : SimSt)
    (h : tripSim c cycleHours cur pickup dropoff n = .ok s) :
    s.gDay = false ∧ s.gBrk = false ∧ s.gStale = false := by
  rw [tripSim] at h
  cases hp : plannerStops c.fullCum c.fullCoords c.totalMi with
  | error e =>
      rw [hp] at h
      exact Except.noConfusion h
  | ok ps =>
      rw [hp] at h
      have hs := Except.ok.inj h
      have hinv := simRun_inv c hok n _ (simInv_init c hok cycleHours cur
        (ps ++ [{ lat := pickup.1, lon := pickup.2, kind := .pickup },
                { lat := dropoff.1, lon := dropoff.2, kind := .dropoff }]))
      rw [hs] at hinv
      exact ⟨hinv.gday, hinv.gbrk, hinv.gstale⟩

/-- A run on a 20000-mile route at 1000 mph: after nine iterations the
stale-window monitor trips — a driving span ends more than 14 hours
after the window start — while the daily-cap, break-cap and
stale-window monitors stay false, refuting the spec's claim that the
loop never lets the on-duty window exceed 14 hours. -/
theorem c1_counterexample :
    (tripSim ⟨500, 19500, 20, [(0, 0), (50, 40)], [0, 20000]⟩ 0
        (0, 0) (0, 0) (50, 40) 9).map
      (fun s => (s.gWin, s.gDay, s.gBrk, s.gStale)) =
      .ok (true, false, false, false) := by
  with_unfolding_all rfl

/-- A concrete instantiation of the amended C1 theorem on a small
well-formed trip. -/
theorem c1_witness :
    (tripSim ⟨0, 400, 8, [(0, 0), (4, 4)], [0, 400]⟩ 0
        (0, 0) (0, 0) (4, 4) 2).map
      (fun s => (s.gDay, s.gBrk, s.gStale)) = .ok (false, false, false) := by
  have hok : SimCtx.ok ⟨0, 400, 8, [(0, 0), (4, 4)], [0, 400]⟩ :=
    ⟨by norm_num, by norm_num [SimCtx.totalMi], rfl, by simp⟩
  have hval : (tripSim ⟨0, 400, 8, [(0, 0), (4, 4)], [0, 400]⟩ 0
      (0, 0) (0, 0) (4, 4) 2).toOption.isSome = true := by
    with_unfolding_all rfl
  cases htrip : tripSim ⟨0, 400, 8, [(0, 0), (4, 4)], [0, 400]⟩ 0
      (0, 0) (0, 0) (4, 4) 2 with
  | error e =>
      rw [htrip] at hval
      exact absurd hval (by simp [Except.toOption])
  | ok s =>
      obtain ⟨h1, h2, h3⟩ := c1_amended _ 0 (0, 0) (0, 0) (4, 4) 2 hok s htrip
      simp [Except.map, h1, h2, h3]

/-- A scan of the fueling-stop placement never raises: as long as the
left bracket endpoint is strictly below the target, a firing index has
a strictly positive bracket, and a non-firing index re-establishes the
bound for the next index. -/
theorem fuelFind_no_err (cum : List ℚ) (coords : List Coord) (nf : ℚ) :
    ∀ (fuel i : ℕ), cum.getD (i - 1) 0 < nf →
      ∀ e, fuelFind cum coords nf fuel i ≠ .error e
  | 0, i, _, e => by
    rw [fuelFind]
    exact fun h => Except.noConfusion h
  | fuel + 1, i, hinv, e => by
    rw [fuelFind]
    by_cases h1 : i < cum.length
    · rw [if_pos h1]
      by_cases h2 : cum.getD i 0 ≥ nf ∧ nf ≥ cum.getD (i - 1) 0
      · rw [if_pos h2, if_neg (by intro h0; linarith [h2.1])]
        exact fun h => Except.noConfusion h
      · rw [if_neg h2]
        have h3 : cum.getD i 0 < nf := by
          by_contra h4
          exact h2 ⟨not_lt.mp h4, le_of_lt hinv⟩
        exact fuelFind_no_err cum coords nf fuel (i + 1) (by simpa using h3) e
    · rw [if_neg h1]
      exact fun h => Except.noConfusion h

/-- The outer fueling loop never raises when the cumulative curve
starts at 0: every threshold is at least 1000, so each inner scan
starts with its left endpoint (the 0 at the head) below the target. -/
theorem fuelLoop_no_err (cum : List ℚ) (coords : List Coord) (totalMi : ℚ)
    (hhead : cum.head? = some 0) :
    ∀ (fuel : ℕ) (nf : ℚ), 0 < nf →
      ∀ e, fuelLoop cum coords totalMi fuel nf ≠ .error e
  | 0, _, _, e => by
    rw [fuelLoop]
    exact fun h => Except.noConfusion h
  | fuel + 1, nf, hnf, e => by
    rw [fuelLoop]
    by_cases h1 : nf < totalMi
    · rw [if_pos h1]
      cases hf : fuelFind cum coords nf cum.length 1 with
      | error e2 =>
          exact absurd hf (fuelFind_no_err cum coords nf cum.length 1
            (by rw [getD_zero_of_head cum hhead]; exact hnf) e2)
      | ok o =>
          cases hl : fuelLoop cum coords totalMi fuel (nf + 1000) with
          | error e3 =>
              exact absurd hl (fuelLoop_no_err cum coords totalMi hhead fuel
                (nf + 1000) (by linarith) e3)
          | ok rest =>
              exact fun h => Except.noConfusion h
    · rw [if_neg h1]
      exact fun h => Except.noConfusion h

/-- C7: the interpolation has NO divide-by-zero guard: when the
bracketing curve values coincide the code computes
`(target - curve[i]) / (curve[i+1] - curve[i])` anyway and raises
`ZeroDivisionError` (see the counterexample).  Amended: on the curves
the program actually feeds in (head 0, as `get_cum_mi` produces), the
degenerate bracket is unreachable — the planner always returns its
stop list without raising, and the simulator's live-position update,
and with it the whole simulation, runs with no exception recorded. -/
theorem c7_amended (c : SimCtx) (cycleHours : ℚ)
    (cur pickup dropoff : ℚ × ℚ) (n : ℕ) (hok : c.ok) :
    (∃ ps, plannerStops c.fullCum c.fullCoords c.totalMi = .ok ps) ∧
      (∀ s, tripSim c cycleHours cur pickup dropoff n = .ok s →
        s.err = none) := by
  constructor
  · cases hp : plannerStops c.fullCum c.fullCoords c.totalMi with
    | error e =>
        exact absurd hp (by
          rw [plannerStops]
          exact fuelLoop_no_err c.fullCum c.fullCoords c.totalMi hok.cum_head
            _ 1000 (by norm_num) e)
    | ok ps => exact ⟨ps, rfl⟩
  · intro s h
    rw [tripSim] at h
    cases hp : plannerStops c.fullCum c.fullCoords c.totalMi with
    | error e =>
        rw [hp] at h
        exact Except.noConfusion h
    | ok ps =>
        rw [hp] at h
        have hs := Except.ok.inj h
        have hinv := simRun_inv c hok n _ (simInv_init c hok cycleHours cur
          (ps ++ [{ lat := pickup.1, lon := pickup.2, kind := .pickup },
                  { lat := dropoff.1, lon := dropoff.2, kind := .dropoff }]))
        rw [hs] at hinv
        exact hinv.err_none

/-- A cumulative curve that sits exactly at the fueling threshold on a
flat segment makes the planner's interpolation divide by zero: the
spec's claimed guard (return `coords[i]` when the bracket endpoints
coincide) does not exist in the code. -/
theorem c7_counterexample :
    plannerStops [1000, 1000] [(5, 5), (9, 9)] 1500 =
      .error .zeroDivision := by
  with_unfolding_all rfl

/-- A concrete instantiation of the amended C7 theorem on a small
well-formed trip. -/
theorem c7_witness :
    (plannerStops
        (SimCtx.fullCum ⟨0, 400, 8, [(0, 0), (4, 4)], [0, 400]⟩)
        (SimCtx.fullCoords ⟨0, 400, 8, [(0, 0), (4, 4)], [0, 400]⟩)
        (SimCtx.totalMi ⟨0, 400, 8, [(0, 0), (4, 4)], [0, 400]⟩)).toOption.isSome
      = true ∧
    (tripSim ⟨0, 400, 8, [(0, 0), (4, 4)], [0, 400]⟩ 0
        (0, 0) (0, 0) (4, 4) 3).map SimSt.err = .ok none := by
  obtain ⟨⟨ps, hps⟩, h2⟩ := c7_amended ⟨0, 400, 8, [(0, 0), (4, 4)], [0, 400]⟩ 0
    (0, 0) (0, 0) (4, 4) 3 ⟨by norm_num, by norm_num [SimCtx.totalMi], rfl, by simp⟩
  refine ⟨by rw [hps]; rfl, ?_⟩
  cases htrip : tripSim ⟨0, 400, 8, [(0, 0), (4, 4)], [0, 400]⟩ 0
      (0, 0) (0, 0) (4, 4) 3 with
  | error e =>
      have hval : (tripSim ⟨0, 400, 8, [(0, 0), (4, 4)], [0, 400]⟩ 0
          (0, 0) (0, 0) (4, 4) 3).toOption.isSome = true := by
        with_unfolding_all rfl
      rw [htrip] at hval
      exact absurd hval (by simp [Except.toOption])
  | ok s =>
      simp [Except.map, h2 s htrip]

/-- Once an exception is recorded, the loop guard fails and further
iterations leave the state unchanged. -/
theorem simRun_stuck (c : SimCtx) (m : ℕ) (s : SimSt) (h : s.err ≠ none) :
    simRun c m s = s := by
  cases m with
  | zero => rfl
  | succ m => rw [simRun, if_neg (fun hc => h hc.2)]

/-- The planner succeeds on every curve whose head is 0. -/
theorem plannerStops_ok (cum : List ℚ) (coords : List Coord) (totalMi : ℚ)
    (hhead : cum.head? = some 0) :
    ∃ ps, plannerStops cum coords totalMi = .ok ps := by
  cases hp : plannerStops cum coords totalMi with
  | error e =>
      exact absurd hp (by
        rw [plannerStops]
        exact fuelLoop_no_err cum coords totalMi hhead _ 1000 (by norm_num) e)
  | ok ps => exact ⟨ps, rfl⟩

/-- With `avg_mph = 0`, an iteration runs its rest/break/pickup blocks
and then raises `ZeroDivisionError` at the `(total_mi - current_mi) /
avg_mph` term of the drive cap. -/
theorem simStep_div_err (c : SimCtx) (s : SimSt) (havg : c.avgMph = 0) :
    simStep c s =
      { pickupPhase c (breakPhase (restPhase s (s.time - s.ws))).1 with
        err := some .zeroDivision } := by
  simp only [simStep]
  rw [drivePhase, if_pos havg]
  rfl

/-- C5: there is NO pre-loop `DegenerateRouteError` guard on
`totalHours <= 0`.  Amended: with `totalHours <= 0` (and a route to
cover) the code instead sets `avg_mph = 0` and the FIRST loop
iteration raises `ZeroDivisionError` at the drive-cap computation —
after the Start event has already been emitted, so the event list is
non-empty; with `totalHours > 0` no exception is ever recorded. -/
theorem c5_amended (c : SimCtx) (cycleHours : ℚ)
    (cur pickup dropoff : ℚ × ℚ) :
    (c.totalHr ≤ 0 → 0 < c.totalMi → c.fullCum.head? = some 0 →
      ∀ (m : ℕ) (s : SimSt),
        tripSim c cycleHours cur pickup dropoff (m + 1) = .ok s →
          s.err = some .zeroDivision ∧ s.events ≠ []) ∧
    (c.ok → ∀ (n : ℕ) (s : SimSt),
      tripSim c cycleHours cur pickup dropoff n = .ok s → s.err = none) := by
  constructor
  · intro hhr hmi hhead m s h
    have havg : c.avgMph = 0 := by
      rw [SimCtx.avgMph, if_neg (not_lt.mpr hhr)]
    rw [tripSim] at h
    obtain ⟨ps, hp⟩ := plannerStops_ok c.fullCum c.fullCoords c.totalMi hhead
    rw [hp] at h
    have hs := Except.ok.inj h
    rw [simRun, if_pos ⟨hmi, rfl⟩] at hs
    rw [simStep_div_err c _ havg] at hs
    rw [simRun_stuck c m _ (fun hc => Option.noConfusion hc)] at hs
    subst hs
    refine ⟨rfl, ?_⟩
    show (pickupPhase c (breakPhase (restPhase _ _)).1).events ≠ []
    obtain ⟨l1, h1⟩ := restPhase_events (initSt cycleHours cur
      (ps ++ [{ lat := pickup.1, lon := pickup.2, kind := .pickup },
              { lat := dropoff.1, lon := dropoff.2, kind := .dropoff }])) _
    obtain ⟨l2, h2⟩ := breakPhase_events (restPhase _ _)
    obtain ⟨l3, h3⟩ := pickupPhase_events c (breakPhase (restPhase _ _)).1
    rw [h3, h2, h1]
    intro hc
    have hlen := congrArg List.length hc
    rw [List.length_append, List.length_append, List.length_append,
      List.length_nil] at hlen
    have h0 : (initSt cycleHours cur
        (ps ++ [{ lat := pickup.1, lon := pickup.2, kind := .pickup },
                { lat := dropoff.1, lon := dropoff.2, kind := .dropoff }])).events.length
        = 1 := rfl
    omega
  · intro hok n s h
    rw [tripSim] at h
    cases hp : plannerStops c.fullCum c.fullCoords c.totalMi with
    | error e =>
        rw [hp] at h
        exact Except.noConfusion h
    | ok ps =>
        rw [hp] at h
        have hs := Except.ok.inj h
        have hinv := simRun_inv c hok n _ (simInv_init c hok cycleHours cur
          (ps ++ [{ lat := pickup.1, lon := pickup.2, kind := .pickup },
                  { lat := dropoff.1, lon := dropoff.2, kind := .dropoff }]))
        rw [hs] at hinv
        exact hinv.err_none

/-- A 100-mile route with zero total duration: the run ends with
`ZeroDivisionError` recorded and the Start event already emitted —
not a `DegenerateRouteError` before the loop with no events, as the
spec claims. -/
theorem c5_counterexample :
    (tripSim ⟨100, 0, 0, [(0, 0), (1, 1)], [0, 100]⟩ 0
        (0, 0) (0, 0) (1, 1) 1).map
      (fun s => (s.err, s.events.map Event.loc)) =
      .ok (some .zeroDivision, [.start]) := by
  with_unfolding_all rfl

/-- A concrete instantiation of both halves of the amended C5
theorem: the degenerate route errors inside the loop with a non-empty
event list, and a positive-duration route records no exception. -/
theorem c5_witness :
    (tripSim ⟨100, 0, 0, [(0, 0), (1, 1)], [0, 100]⟩ 0
        (0, 0) (0, 0) (1, 1) 1).map
      (fun s => (s.err, decide (s.events = []))) =
      .ok (some .zeroDivision, false) ∧
    (tripSim ⟨0, 400, 8, [(0, 0), (4, 4)], [0, 400]⟩ 0
        (0, 0) (0, 0) (4, 4) 4).map SimSt.err = .ok none := by
  obtain ⟨ha, hb⟩ := c5_amended ⟨100, 0, 0, [(0, 0), (1, 1)], [0, 100]⟩ 0
    (0, 0) (0, 0) (1, 1)
  obtain ⟨-, hb2⟩ := c5_amended ⟨0, 400, 8, [(0, 0), (4, 4)], [0, 400]⟩ 0
    (0, 0) (0, 0) (4, 4)
  constructor
  · have hval : (tripSim ⟨100, 0, 0, [(0, 0), (1, 1)], [0, 100]⟩ 0
        (0, 0) (0, 0) (1, 1) 1).toOption.isSome = true := by
      with_unfolding_all rfl
    cases htrip : tripSim ⟨100, 0, 0, [(0, 0), (1, 1)], [0, 100]⟩ 0
        (0, 0) (0, 0) (1, 1) 1 with
    | error e =>
        rw [htrip] at hval
        exact absurd hval (by simp [Except.toOption])
    | ok s =>
        obtain ⟨he, hev⟩ := ha (by norm_num) (by norm_num [SimCtx.totalMi]) rfl 0 s htrip
        simp [Except.map, he, hev]
  · have hval : (tripSim ⟨0, 400, 8, [(0, 0), (4, 4)], [0, 400]⟩ 0
        (0, 0) (0, 0) (4, 4) 4).toOption.isSome = true := by
      with_unfolding_all rfl
    cases htrip : tripSim ⟨0, 400, 8, [(0, 0), (4, 4)], [0, 400]⟩ 0
        (0, 0) (0, 0) (4, 4) 4 with
    | error e =>
        rw [htrip] at hval
        exact absurd hval (by simp [Except.toOption])
    | ok s =>
        simp [Except.map,
          hb2 ⟨by norm_num, by norm_num [SimCtx.totalMi], rfl, by simp⟩ 4 s htrip]

/-- Dividing a shift by the step drops the ceiling by one. -/
theorem ceil_div_shift (x d : ℚ) (hd : d ≠ 0) :
    ⌈(x - d) / d⌉ = ⌈x / d⌉ - 1 := by
  rw [sub_div, div_self hd, Int.ceil_sub_one]

/-- The position update touches no field the measure reads. -/
theorem updatePos_meas (c : SimCtx) (s : SimSt) :
    m1 c (updatePos c s) = m1 c s ∧ m2 c (updatePos c s) = m2 c s ∧
    m3 c (updatePos c s) = m3 c s ∧ m4 (updatePos c s) = m4 s := by
  obtain ⟨i2, la, lo, e2, heq⟩ := updatePos_shape c s
  rw [heq]
  exact ⟨rfl, rfl, rfl, rfl⟩

/-- The trip-completion block does not change the mileage. -/
theorem dropoffPhase_mi (c : SimCtx) (s : SimSt) :
    (dropoffPhase c s).mi = s.mi := by
  by_cases h : s.mi ≥ c.totalMi
  · obtain ⟨ev, heq⟩ := dropoffPhase_pos_eq c s h
    rw [heq]
  · rw [dropoffPhase_neg_eq c s h]

/-- Under the invariant the driving block reduces to its non-raising
normal form. -/
theorem drivePhase_eq_of_inv (c : SimCtx) (s : SimSt) (tsw dsb : ℚ)
    (hok : c.ok) (hs : SimInv c s) :
    drivePhase c s tsw dsb =
      if maxDriveOf c s tsw dsb > 0 then
        fuelCheck (updatePos c (driveAdvance c s tsw dsb))
      else s := by
  have hv := avgMph_pos c hok
  rw [drivePhase, if_neg (ne_of_gt hv)]
  by_cases hmd : maxDriveOf c s tsw dsb > 0
  · rw [if_pos hmd, if_pos hmd]
    obtain ⟨ev, hA⟩ := driveAdvance_eq c s tsw dsb
    have hAbase : c.fullCum.getD (driveAdvance c s tsw dsb).i 0 <
        (driveAdvance c s tsw dsb).mi := by
      rw [hA]
      show c.fullCum.getD s.i 0 < s.mi + maxDriveOf c s tsw dsb
      rcases hs.pos_inv with ⟨hm0, hi0⟩ | hlt
      · rw [hi0, getD_zero_of_head c.fullCum hok.cum_head, hm0]
        linarith
      · linarith [hs.mi_nn]
    obtain ⟨hUerr, _, _⟩ :=
      updatePos_err_pos c (driveAdvance c s tsw dsb) hok.coords_ne hAbase
    have hUerr2 : (updatePos c (driveAdvance c s tsw dsb)).err = none := by
      rw [hUerr, hA]
      exact hs.err_none
    rw [if_neg (by rw [hUerr2]; simp)]
  · rw [if_neg hmd, if_neg hmd]

/-- Which cap the computed span attains when fueling does not bind. -/
theorem maxDriveOf_cases (c : SimCtx) (s : SimSt) (tsw dsb : ℚ)
    (hv : 0 < c.avgMph) (hdsb : dsb < 8)
    (hnofuel : s.mi + maxDriveOf c s tsw dsb < s.nf) :
    maxDriveOf c s tsw dsb / c.avgMph = 8 - dsb ∨
    maxDriveOf c s tsw dsb / c.avgMph = 11 - s.cum ∨
    maxDriveOf c s tsw dsb / c.avgMph = 14 - tsw ∨
    maxDriveOf c s tsw dsb = c.totalMi - s.mi := by
  have hb : (if dsb < 8 then 8 - dsb else 0) = 8 - dsb := if_pos hdsb
  by_cases hcap : s.mi +
      min (min (if dsb < 8 then 8 - dsb else 0) (11 - s.cum))
        (min (14 - tsw) ((c.totalMi - s.mi) / c.avgMph)) * c.avgMph > s.nf
  · exfalso
    have heq : maxDriveOf c s tsw dsb = s.nf - s.mi := by
      rw [maxDriveOf]
      exact if_pos hcap
    rw [heq] at hnofuel
    linarith
  · have heq : maxDriveOf c s tsw dsb =
        min (min (if dsb < 8 then 8 - dsb else 0) (11 - s.cum))
          (min (14 - tsw) ((c.totalMi - s.mi) / c.avgMph)) * c.avgMph := by
      rw [maxDriveOf]
      exact if_neg hcap
    rw [heq, mul_div_cancel_right₀ _ (ne_of_gt hv)]
    rcases min_cases (min (if dsb < 8 then 8 - dsb else 0) (11 - s.cum))
        (min (14 - tsw) ((c.totalMi - s.mi) / c.avgMph)) with ⟨h1, _⟩ | ⟨h1, _⟩
    · rcases min_cases (if dsb < 8 then 8 - dsb else 0) (11 - s.cum) with
        ⟨h2, _⟩ | ⟨h2, _⟩
      · exact Or.inl (by rw [h1, h2, hb])
      · exact Or.inr (Or.inl (by rw [h1, h2]))
    · rcases min_cases (14 - tsw) ((c.totalMi - s.mi) / c.avgMph) with
        ⟨h2, _⟩ | ⟨h2, _⟩
      · exact Or.inr (Or.inr (Or.inl (by rw [h1, h2])))
      · refine Or.inr (Or.inr (Or.inr ?_))
        rw [h1, h2, div_mul_cancel₀ _ (ne_of_gt hv)]

/-- The rest branch never increases any measure component, and when it
fires it strictly decreases `m1 + m2 + m3`: a 34-hour reset consumes 34
of `phiC8` (dropping `m1`), a 10-hour rest zeroes a window of at least
11 elapsed hours out of `phiR` (dropping `m2`). -/
theorem rest_meas (c : SimCtx) (s : SimSt) (hok : c.ok) (hs : SimInv c s) :
    m1 c (restPhase s (s.time - s.ws)) ≤ m1 c s ∧
    m2 c (restPhase s (s.time - s.ws)) ≤ m2 c s ∧
    m3 c (restPhase s (s.time - s.ws)) ≤ m3 c s ∧
    (s.cum ≥ 11 ∨ s.time - s.ws ≥ 14 ∨ s.c8 ≥ 70 →
      m1 c (restPhase s (s.time - s.ws)) + m2 c (restPhase s (s.time - s.ws)) +
        m3 c (restPhase s (s.time - s.ws)) + 1 ≤ m1 c s + m2 c s + m3 c s) := by
  by_cases hfire : s.cum ≥ 11 ∨ s.time - s.ws ≥ 14 ∨ s.c8 ≥ 70
  case neg =>
    rw [restPhase_neg_eq s _ hfire]
    exact ⟨le_refl _, le_refl _, le_refl _, fun h => absurd h hfire⟩
  case pos =>
    obtain ⟨ev, st, heq⟩ := restPhase_pos_eq s _ hfire
    have hgd : 0 ≤ s.cum - s.cumAtLbe := by
      rcases hs.branch with hb | hb
      · linarith [hs.cum_nn, hb.2.1]
      · linarith [hb.2.2]
    have htsw0 : 0 ≤ s.time - s.ws := le_trans hs.cum_nn hs.cum_wall
    by_cases hc8 : s.c8 < 70
    · have heq2 : restPhase s (s.time - s.ws) = { s with
          time := s.time + 10, ws := s.time + 10, lbe := s.time + 10,
          cum := 0, cumOn := 0, c8 := max 0 s.c8,
          events := ev, stops := st, cumAtLbe := 0 } := by
        rw [heq, if_pos hc8, if_neg (by norm_num : ¬((10 : ℚ) = 34)), sub_zero]
      rw [heq2]
      have h11 : 11 ≤ s.time - s.ws := by
        rcases hfire with h | h | h
        · linarith [hs.cum_wall]
        · linarith
        · exact absurd h (not_le.mpr hc8)
      have hbc : ⌈((c.totalMi - s.mi) / c.avgMph + ((0 : ℚ) - 0)) / 8⌉ ≤
          ⌈((c.totalMi - s.mi) / c.avgMph + (s.cum - s.cumAtLbe)) / 8⌉ :=
        Int.ceil_le_ceil (by linarith)
      have hbcq : ((⌈((c.totalMi - s.mi) / c.avgMph + ((0 : ℚ) - 0)) / 8⌉ : ℤ) : ℚ) ≤
          ((⌈((c.totalMi - s.mi) / c.avgMph + (s.cum - s.cumAtLbe)) / 8⌉ : ℤ) : ℚ) :=
        Int.cast_le.mpr hbc
      have hm1 : m1 c { s with
          time := s.time + 10, ws := s.time + 10, lbe := s.time + 10,
          cum := 0, cumOn := 0, c8 := max 0 s.c8,
          events := ev, stops := st, cumAtLbe := 0 } = m1 c s := by
        simp only [m1, phiC8, remHr, fCnt, pCnt]
        rw [max_eq_right (le_max_left (0 : ℚ) s.c8)]
      have hm2 : m2 c { s with
          time := s.time + 10, ws := s.time + 10, lbe := s.time + 10,
          cum := 0, cumOn := 0, c8 := max 0 s.c8,
          events := ev, stops := st, cumAtLbe := 0 } ≤ m2 c s - 1 := by
        simp only [m2, phiR, remHr, fCnt, pCnt, bCnt, SimSt.gDsb]
        rw [← ceil_div_shift _ 11 (by norm_num)]
        exact Int.ceil_le_ceil (by linarith)
      have hm3 : m3 c { s with
          time := s.time + 10, ws := s.time + 10, lbe := s.time + 10,
          cum := 0, cumOn := 0, c8 := max 0 s.c8,
          events := ev, stops := st, cumAtLbe := 0 } ≤ m3 c s := by
        simp only [m3, bCnt, remHr, SimSt.gDsb, fCnt, pCnt]
        exact add_le_add (add_le_add hbc (le_refl _)) (le_refl _)
      exact ⟨le_of_eq hm1, by linarith, hm3, fun _ => by linarith⟩
    · have heq2 : restPhase s (s.time - s.ws) = { s with
          time := s.time + 34, ws := s.time + 34, lbe := s.time + 34,
          cum := 0, cumOn := 0, c8 := max 0 (s.c8 - 34),
          events := ev, stops := st, cumAtLbe := 0 } := by
        rw [heq, if_neg hc8, if_pos rfl]
      rw [heq2]
      have hc8' : (70 : ℚ) ≤ s.c8 := not_lt.mp hc8
      have hbc : ⌈((c.totalMi - s.mi) / c.avgMph + ((0 : ℚ) - 0)) / 8⌉ ≤
          ⌈((c.totalMi - s.mi) / c.avgMph + (s.cum - s.cumAtLbe)) / 8⌉ :=
        Int.ceil_le_ceil (by linarith)
      have hbcq : ((⌈((c.totalMi - s.mi) / c.avgMph + ((0 : ℚ) - 0)) / 8⌉ : ℤ) : ℚ) ≤
          ((⌈((c.totalMi - s.mi) / c.avgMph + (s.cum - s.cumAtLbe)) / 8⌉ : ℤ) : ℚ) :=
        Int.cast_le.mpr hbc
      have hm1 : m1 c { s with
          time := s.time + 34, ws := s.time + 34, lbe := s.time + 34,
          cum := 0, cumOn := 0, c8 := max 0 (s.c8 - 34),
          events := ev, stops := st, cumAtLbe := 0 } = m1 c s - 1 := by
        simp only [m1, phiC8, remHr, fCnt, pCnt]
        rw [max_eq_right (le_max_left (0 : ℚ) (s.c8 - 34)),
          max_eq_right (by linarith : (0 : ℚ) ≤ s.c8 - 34),
          max_eq_right (by linarith : (0 : ℚ) ≤ s.c8),
          ← ceil_div_shift _ 34 (by norm_num)]
        congr 1
        ring
      have hm2 : m2 c { s with
          time := s.time + 34, ws := s.time + 34, lbe := s.time + 34,
          cum := 0, cumOn := 0, c8 := max 0 (s.c8 - 34),
          events := ev, stops := st, cumAtLbe := 0 } ≤ m2 c s := by
        simp only [m2, phiR, remHr, fCnt, pCnt, bCnt, SimSt.gDsb]
        exact Int.ceil_le_ceil (by linarith)
      have hm3 : m3 c { s with
          time := s.time + 34, ws := s.time + 34, lbe := s.time + 34,
          cum := 0, cumOn := 0, c8 := max 0 (s.c8 - 34),
          events := ev, stops := st, cumAtLbe := 0 } ≤ m3 c s := by
        simp only [m3, bCnt, remHr, SimSt.gDsb, fCnt, pCnt]
        exact add_le_add (add_le_add hbc (le_refl _)) (le_refl _)
      exact ⟨by linarith, hm2, hm3, fun _ => by linarith⟩

/-- The break branch never increases a measure component; when it fires
(at least 8 hours driven since the last break end) it retires one
pending break, decreasing `m3`. -/
theorem break_meas (c : SimCtx) (s : SimSt) (hs : SimInv c s) :
    m1 c (breakPhase s).1 ≤ m1 c s ∧ m2 c (breakPhase s).1 ≤ m2 c s ∧
    m3 c (breakPhase s).1 ≤ m3 c s ∧
    (dsbOf s ≥ 8 →
      m1 c (breakPhase s).1 + m2 c (breakPhase s).1 + m3 c (breakPhase s).1 + 1 ≤
        m1 c s + m2 c s + m3 c s) := by
  by_cases hfire : dsbOf s ≥ 8
  case neg =>
    rw [breakPhase_neg_eq s hfire]
    exact ⟨le_refl _, le_refl _, le_refl _, fun h => absurd h hfire⟩
  case pos =>
    obtain ⟨ev, st, heq⟩ := breakPhase_pos_eq s hfire
    rw [heq]
    have h8 : 8 ≤ s.cum - s.cumAtLbe := by
      rcases hs.branch with hb | hb
      · have hd : dsbOf s = s.cum := by
          rw [dsbOf, if_neg (by rw [hb.1]; exact lt_irrefl _)]
        linarith [hb.2.1]
      · have hgt : s.lbe > s.ws := by linarith [hb.1, hb.2.1]
        have hd : dsbOf s = s.cum - (s.lbe - s.ws) := by
          rw [dsbOf, if_pos hgt]
        linarith [hb.1]
    have hbc : ⌈((c.totalMi - s.mi) / c.avgMph + (s.cum - s.cum)) / 8⌉ ≤
        ⌈((c.totalMi - s.mi) / c.avgMph + (s.cum - s.cumAtLbe)) / 8⌉ - 1 := by
      rw [← ceil_div_shift _ 8 (by norm_num)]
      exact Int.ceil_le_ceil (by linarith)
    have hbcq : ((⌈((c.totalMi - s.mi) / c.avgMph + (s.cum - s.cum)) / 8⌉ : ℤ) : ℚ) ≤
        ((⌈((c.totalMi - s.mi) / c.avgMph + (s.cum - s.cumAtLbe)) / 8⌉ : ℤ) : ℚ) - 1 := by
      exact_mod_cast hbc
    have hm1 : m1 c { s with
        time := s.time + 1 / 2, lbe := s.time + 1 / 2,
        events := ev, stops := st, cumAtLbe := s.cum } = m1 c s := by
      simp only [m1, phiC8, remHr, fCnt, pCnt]
    have hm2 : m2 c { s with
        time := s.time + 1 / 2, lbe := s.time + 1 / 2,
        events := ev, stops := st, cumAtLbe := s.cum } ≤ m2 c s := by
      simp only [m2, phiR, remHr, fCnt, pCnt, bCnt, SimSt.gDsb]
      exact Int.ceil_le_ceil (by linarith)
    have hm3 : m3 c { s with
        time := s.time + 1 / 2, lbe := s.time + 1 / 2,
        events := ev, stops := st, cumAtLbe := s.cum } ≤ m3 c s - 1 := by
      simp only [m3, bCnt, remHr, SimSt.gDsb, fCnt, pCnt]
      linarith
    exact ⟨le_of_eq hm1, hm2, by linarith, fun _ => by linarith⟩

/-- The pickup branch never increases a measure component; when it
fires it retires the pending pickup, decreasing `m3`. -/
theorem pickup_meas (c : SimCtx) (s : SimSt) :
    m1 c (pickupPhase c s) ≤ m1 c s ∧ m2 c (pickupPhase c s) ≤ m2 c s ∧
    m3 c (pickupPhase c s) ≤ m3 c s ∧
    (s.toPickup ∧ s.mi ≥ c.distance1Mi →
      m1 c (pickupPhase c s) + m2 c (pickupPhase c s) + m3 c (pickupPhase c s) + 1 ≤
        m1 c s + m2 c s + m3 c s) := by
  by_cases hfire : s.toPickup ∧ s.mi ≥ c.distance1Mi
  case neg =>
    rw [pickupPhase_neg_eq c s hfire]
    exact ⟨le_refl _, le_refl _, le_refl _, fun h => absurd h hfire⟩
  case pos =>
    obtain ⟨ev, heq⟩ := pickupPhase_pos_eq c s hfire
    rw [heq]
    have htp : s.toPickup = true := hfire.1
    have hp1 : pCnt s = 1 := by simp [pCnt, htp]
    have hp0 : pCnt { s with
        time := s.time + 1, cumOn := s.cumOn + 1, c8 := s.c8 + 1,
        events := ev, toPickup := false } = 0 := by simp [pCnt]
    have hmax : max 0 (s.c8 + 1) ≤ max 0 s.c8 + 1 := by
      apply max_le
      · linarith [le_max_left (0 : ℚ) s.c8]
      · linarith [le_max_right (0 : ℚ) s.c8]
    have hm1 : m1 c { s with
        time := s.time + 1, cumOn := s.cumOn + 1, c8 := s.c8 + 1,
        events := ev, toPickup := false } ≤ m1 c s := by
      simp only [m1, phiC8, remHr, fCnt]
      rw [hp0, hp1]
      exact Int.ceil_le_ceil (by push_cast; linarith)
    have hm2 : m2 c { s with
        time := s.time + 1, cumOn := s.cumOn + 1, c8 := s.c8 + 1,
        events := ev, toPickup := false } ≤ m2 c s := by
      simp only [m2, phiR, remHr, fCnt, bCnt, SimSt.gDsb]
      rw [hp0, hp1]
      exact Int.ceil_le_ceil (by push_cast; linarith)
    have hm3 : m3 c { s with
        time := s.time + 1, cumOn := s.cumOn + 1, c8 := s.c8 + 1,
        events := ev, toPickup := false } ≤ m3 c s - 1 := by
      simp only [m3, bCnt, remHr, SimSt.gDsb, fCnt]
      rw [hp0, hp1]
      omega
    exact ⟨hm1, hm2, by linarith, fun _ => by linarith⟩

/-- A driving advance conserves `phiR`, `bCnt` and `m3` and never
increases `phiC8`: the on-duty clock gains exactly the span removed
from the remaining driving hours. -/
theorem driveAdvance_meas (c : SimCtx) (s : SimSt) (tsw dsb : ℚ)
    (hv : 0 < c.avgMph) (hmd : 0 ≤ maxDriveOf c s tsw dsb) :
    m1 c (driveAdvance c s tsw dsb) ≤ m1 c s ∧
    m2 c (driveAdvance c s tsw dsb) ≤ m2 c s ∧
    m3 c (driveAdvance c s tsw dsb) = m3 c s := by
  obtain ⟨ev, hA⟩ := driveAdvance_eq c s tsw dsb
  rw [hA]
  have hspan : 0 ≤ maxDriveOf c s tsw dsb / c.avgMph :=
    div_nonneg hmd (le_of_lt hv)
  have hrem : (c.totalMi - (s.mi + maxDriveOf c s tsw dsb)) / c.avgMph =
      (c.totalMi - s.mi) / c.avgMph - maxDriveOf c s tsw dsb / c.avgMph := by
    ring
  have hmax : max 0 (s.c8 + maxDriveOf c s tsw dsb / c.avgMph) ≤
      max 0 s.c8 + maxDriveOf c s tsw dsb / c.avgMph := by
    apply max_le
    · linarith [le_max_left (0 : ℚ) s.c8]
    · linarith [le_max_right (0 : ℚ) s.c8]
  have hin : ((c.totalMi - (s.mi + maxDriveOf c s tsw dsb)) / c.avgMph +
      (s.cum + maxDriveOf c s tsw dsb / c.avgMph - s.cumAtLbe)) / 8 =
      ((c.totalMi - s.mi) / c.avgMph + (s.cum - s.cumAtLbe)) / 8 := by
    rw [hrem]
    ring
  refine ⟨?_, ?_, ?_⟩
  · simp only [m1, phiC8, remHr, fCnt, pCnt]
    exact Int.ceil_le_ceil (by rw [hrem]; linarith)
  · simp only [m2, phiR, remHr, fCnt, pCnt, bCnt, SimSt.gDsb]
    rw [hin]
    exact Int.ceil_le_ceil (by rw [hrem]; linarith)
  · simp only [m3, bCnt, remHr, SimSt.gDsb, fCnt, pCnt]
    rw [hin]

/-- The fueling block never increases a measure component; when it
fires it retires one pending fueling, decreasing `m3`. -/
theorem fuelCheck_meas (c : SimCtx) (s : SimSt) :
    m1 c (fuelCheck s) ≤ m1 c s ∧ m2 c (fuelCheck s) ≤ m2 c s ∧
    m3 c (fuelCheck s) ≤ m3 c s ∧
    (s.mi ≥ s.nf → m3 c (fuelCheck s) = m3 c s - 1) := by
  by_cases hfire : s.mi ≥ s.nf
  case neg =>
    rw [fuelCheck_neg_eq s hfire]
    exact ⟨le_refl _, le_refl _, le_refl _, fun h => absurd h hfire⟩
  case pos =>
    obtain ⟨ev, st, hF⟩ := fuelCheck_pos_eq s hfire
    rw [hF]
    have hf : fCnt c { s with
        time := s.time + 1 / 2, cumOn := s.cumOn + 1 / 2, c8 := s.c8 + 1 / 2,
        nf := s.nf + 1000, events := ev, stops := st } = fCnt c s - 1 := by
      simp only [fCnt]
      rw [show (c.totalMi + 1000 - (s.nf + 1000)) / 1000 =
        ((c.totalMi + 1000 - s.nf) - 1000) / 1000 by ring,
        ceil_div_shift _ 1000 (by norm_num)]
    have hmax : max 0 (s.c8 + 1 / 2) ≤ max 0 s.c8 + 1 / 2 := by
      apply max_le
      · linarith [le_max_left (0 : ℚ) s.c8]
      · linarith [le_max_right (0 : ℚ) s.c8]
    have hm1 : m1 c { s with
        time := s.time + 1 / 2, cumOn := s.cumOn + 1 / 2, c8 := s.c8 + 1 / 2,
        nf := s.nf + 1000, events := ev, stops := st } ≤ m1 c s := by
      simp only [m1, phiC8, remHr, pCnt]
      rw [hf]
      exact Int.ceil_le_ceil (by push_cast; linarith)
    have hm2 : m2 c { s with
        time := s.time + 1 / 2, cumOn := s.cumOn + 1 / 2, c8 := s.c8 + 1 / 2,
        nf := s.nf + 1000, events := ev, stops := st } ≤ m2 c s := by
      simp only [m2, phiR, remHr, pCnt, bCnt, SimSt.gDsb]
      rw [hf]
      exact Int.ceil_le_ceil (by push_cast; linarith)
    have hm3 : m3 c { s with
        time := s.time + 1 / 2, cumOn := s.cumOn + 1 / 2, c8 := s.c8 + 1 / 2,
        nf := s.nf + 1000, events := ev, stops := st } = m3 c s - 1 := by
      simp only [m3, bCnt, remHr, SimSt.gDsb, pCnt]
      rw [hf]
      omega
    exact ⟨hm1, hm2, by omega, fun _ => hm3⟩

/-- A 0/1 indicator is non-negative. -/
theorem ite01_nonneg (p : Prop) [Decidable p] : 0 ≤ (if p then (1 : ℤ) else 0) := by
  split <;> norm_num

/-- A 0/1 indicator is at most one. -/
theorem ite01_le_one (p : Prop) [Decidable p] : (if p then (1 : ℤ) else 0) ≤ 1 := by
  split <;> norm_num

/-- 0/1 indicators are monotone along implication. -/
theorem ite01_mono (p q : Prop) [Decidable p] [Decidable q] (h : p → q) :
    (if p then (1 : ℤ) else 0) ≤ (if q then (1 : ℤ) else 0) := by
  by_cases hp : p
  · rw [if_pos hp, if_pos (h hp)]
  · rw [if_neg hp]
    exact ite01_nonneg q

/-- The headroom component is non-negative. -/
theorem m4_nonneg (s : SimSt) : 0 ≤ m4 s := by
  simp only [m4]
  linarith [ite01_nonneg (s.gDsb < 8), ite01_nonneg (s.cum < 11),
    ite01_nonneg (s.time - s.ws < 14)]

/-- The headroom component is at most three. -/
theorem m4_le_three (s : SimSt) : m4 s ≤ 3 := by
  simp only [m4]
  linarith [ite01_le_one (s.gDsb < 8), ite01_le_one (s.cum < 11),
    ite01_le_one (s.time - s.ws < 14)]

/-- Under the loop invariant the measure is non-negative. -/
theorem simMeasure_nonneg (c : SimCtx) (s : SimSt) (hok : c.ok) (hs : SimInv c s) :
    0 ≤ simMeasure c s := by
  have hv := avgMph_pos c hok
  have hrem : 0 ≤ remHr c s := by
    simp only [remHr]
    exact div_nonneg (by linarith [hs.mi_total]) (le_of_lt hv)
  have hf : 0 ≤ fCnt c s := by
    simp only [fCnt]
    exact Int.ceil_nonneg (div_nonneg (by linarith [hs.nf_le]) (by norm_num))
  have hp : 0 ≤ pCnt s := by
    simp only [pCnt]
    exact ite01_nonneg _
  have hgd : 0 ≤ SimSt.gDsb s := by
    simp only [SimSt.gDsb]
    rcases hs.branch with hb | hb
    · linarith [hs.cum_nn, hb.2.1]
    · linarith [hb.2.2]
  have hb : 0 ≤ bCnt c s := by
    simp only [bCnt]
    exact Int.ceil_nonneg (div_nonneg (by linarith) (by norm_num))
  have hfq : (0 : ℚ) ≤ (fCnt c s : ℚ) := by exact_mod_cast hf
  have hpq : (0 : ℚ) ≤ (pCnt s : ℚ) := by exact_mod_cast hp
  have hbq : (0 : ℚ) ≤ (bCnt c s : ℚ) := by exact_mod_cast hb
  have htsw : 0 ≤ s.time - s.ws := le_trans hs.cum_nn hs.cum_wall
  have h1 : 0 ≤ m1 c s := by
    simp only [m1]
    refine Int.ceil_nonneg (div_nonneg ?_ (by norm_num))
    simp only [phiC8]
    linarith [le_max_left (0 : ℚ) s.c8]
  have h2 : 0 ≤ m2 c s := by
    simp only [m2]
    refine Int.ceil_nonneg (div_nonneg ?_ (by norm_num))
    simp only [phiR]
    linarith
  have h3 : 0 ≤ m3 c s := by
    simp only [m3]
    linarith
  have h4 := m4_nonneg s
  simp only [simMeasure]
  linarith

/-- All four headroom terms positive forces a positive allowed drive. -/
theorem maxDriveOf_pos (c : SimCtx) (s : SimSt) (tsw dsb : ℚ)
    (hv : 0 < c.avgMph) (hdsb : dsb < 8) (hcum : s.cum < 11) (htsw : tsw < 14)
    (hrem : s.mi < c.totalMi) (hnf : s.mi < s.nf) :
    0 < maxDriveOf c s tsw dsb := by
  rw [maxDriveOf, if_pos hdsb]
  have hb' : (0 : ℚ) < min (min (8 - dsb) (11 - s.cum))
      (min (14 - tsw) ((c.totalMi - s.mi) / c.avgMph)) * c.avgMph := by
    apply mul_pos _ hv
    apply lt_min
    · apply lt_min
      · linarith
      · linarith
    · apply lt_min
      · linarith
      · exact div_pos (by linarith) hv
  split
  · linarith
  · exact hb'

/-- The pickup branch does not change the mileage. -/
theorem pickupPhase_mi (c : SimCtx) (s : SimSt) :
    (pickupPhase c s).mi = s.mi := by
  by_cases h : s.toPickup ∧ s.mi ≥ c.distance1Mi
  · obtain ⟨ev, heq⟩ := pickupPhase_pos_eq c s h
    rw [heq]
  · rw [pickupPhase_neg_eq c s h]

/-- A pure driving advance whose span attains one of the three
hours-of-service caps kills the corresponding headroom indicator while
the others cannot revive, so `m4` strictly decreases. -/
theorem driveAdvance_m4 (c : SimCtx) (s : SimSt) (tsw dsb : ℚ)
    (hs : SimInv c s) (hspan_nn : 0 ≤ maxDriveOf c s tsw dsb / c.avgMph)
    (hdsb_eq : dsb = dsbOf s) (hdsb : dsb < 8) (hcum : s.cum < 11)
    (htsw_eq : tsw = s.time - s.ws) (htsw : tsw < 14)
    (hcase : maxDriveOf c s tsw dsb / c.avgMph = 8 - dsb ∨
      maxDriveOf c s tsw dsb / c.avgMph = 11 - s.cum ∨
      maxDriveOf c s tsw dsb / c.avgMph = 14 - tsw) :
    m4 (driveAdvance c s tsw dsb) ≤ m4 s - 1 := by
  obtain ⟨ev, hA⟩ := driveAdvance_eq c s tsw dsb
  rw [hA]
  have hgdsb : dsb ≤ s.cum - s.cumAtLbe ∧ s.cum - s.cumAtLbe < 8 := by
    rcases hs.branch with hb | hb
    · have hd : dsbOf s = s.cum := by
        rw [dsbOf, if_neg (by rw [hb.1]; exact lt_irrefl _)]
      constructor
      · rw [hdsb_eq, hd]
        linarith [hb.2.1]
      · rw [hdsb_eq, hd] at hdsb
        linarith [hb.2.1]
    · have hgt : s.lbe > s.ws := by linarith [hb.1, hb.2.1]
      have hd : dsbOf s = s.cum - (s.lbe - s.ws) := by
        rw [dsbOf, if_pos hgt]
      constructor
      · rw [hdsb_eq, hd]
        linarith [hb.1]
      · linarith [hb.2.1, hs.cum_le]
  simp only [m4, SimSt.gDsb]
  have hmono2 := ite01_mono (s.cum + maxDriveOf c s tsw dsb / c.avgMph < 11)
    (s.cum < 11) (fun h => by linarith)
  have hmono3 := ite01_mono
    (s.time + maxDriveOf c s tsw dsb / c.avgMph - s.ws < 14)
    (s.time - s.ws < 14) (fun h => by linarith)
  have hmono1 := ite01_mono
    (s.cum + maxDriveOf c s tsw dsb / c.avgMph - s.cumAtLbe < 8)
    (s.cum - s.cumAtLbe < 8) (fun h => by linarith)
  have hI1 : (if s.cum - s.cumAtLbe < 8 then (1 : ℤ) else 0) = 1 :=
    if_pos hgdsb.2
  have hI2 : (if s.cum < 11 then (1 : ℤ) else 0) = 1 := if_pos hcum
  have hI3 : (if s.time - s.ws < 14 then (1 : ℤ) else 0) = 1 :=
    if_pos (by linarith)
  rcases hcase with hsp | hsp | hsp
  · have hz : (if s.cum + maxDriveOf c s tsw dsb / c.avgMph - s.cumAtLbe < 8
        then (1 : ℤ) else 0) = 0 := by
      rw [hsp]
      exact if_neg (not_lt.mpr (by linarith [hgdsb.1]))
    linarith [hz, hmono2, hmono3, hI1]
  · have hz : (if s.cum + maxDriveOf c s tsw dsb / c.avgMph < 11
        then (1 : ℤ) else 0) = 0 := by
      rw [hsp]
      exact if_neg (not_lt.mpr (by linarith))
    linarith [hz, hmono1, hmono3, hI2]
  · have hz : (if s.time + maxDriveOf c s tsw dsb / c.avgMph - s.ws < 14
        then (1 : ℤ) else 0) = 0 := by
      rw [hsp]
      exact if_neg (not_lt.mpr (by linarith))
    linarith [hz, hmono1, hmono2, hI3]

/-- Every loop iteration that leaves the guard true strictly decreases
the measure: a fired rest drops `m1` or `m2`, a fired break, pickup or
fueling drops `m3`, and a pure driving span exhausts one of the three
headroom indicators of `m4`; the remaining blocks never increase the
earlier components. -/
theorem simStep_measure_decr (c : SimCtx) (s : SimSt) (hok : c.ok)
    (hs : SimInv c s) (hmi : s.mi < c.totalMi)
    (hcont : (simStep c s).mi < c.totalMi) :
    simMeasure c (simStep c s) < simMeasure c s := by
  have hv := avgMph_pos c hok
  have hs1 := restPhase_inv c s (s.time - s.ws) hs
  obtain ⟨hs2, hdsb, hd1⟩ := breakPhase_inv c (restPhase s (s.time - s.ws)) hs1
  have hs3 := pickupPhase_inv c (breakPhase (restPhase s (s.time - s.ws))).1 hs2
  obtain ⟨hk1, hk2, hk3⟩ :=
    pickupPhase_keeps c (breakPhase (restPhase s (s.time - s.ws))).1
  have hs4 := drivePhase_inv c
    (pickupPhase c (breakPhase (restPhase s (s.time - s.ws))).1)
    (s.time - s.ws) (breakPhase (restPhase s (s.time - s.ws))).2 hok hs3 hdsb
    (by
      intro h
      rw [hk1, hk2] at h
      rw [hk3]
      exact hd1 h)
  simp only [simStep] at hcont ⊢
  rw [if_neg (by rw [hs4.err_none]; simp)] at hcont ⊢
  have hs4mi : (drivePhase c
      (pickupPhase c (breakPhase (restPhase s (s.time - s.ws))).1)
      (s.time - s.ws)
      (breakPhase (restPhase s (s.time - s.ws))).2).mi < c.totalMi := by
    rw [← dropoffPhase_mi c (drivePhase c
      (pickupPhase c (breakPhase (restPhase s (s.time - s.ws))).1)
      (s.time - s.ws) (breakPhase (restPhase s (s.time - s.ws))).2)]
    exact hcont
  rw [dropoffPhase_neg_eq c _ (not_le.mpr hs4mi)]
  have hA := rest_meas c s hok hs
  have hB := break_meas c (restPhase s (s.time - s.ws)) hs1
  have hC := pickup_meas c (breakPhase (restPhase s (s.time - s.ws))).1
  rw [drivePhase_eq_of_inv c _ (s.time - s.ws) _ hok hs3] at hs4mi ⊢
  by_cases hmd : maxDriveOf c
      (pickupPhase c (breakPhase (restPhase s (s.time - s.ws))).1)
      (s.time - s.ws) (breakPhase (restPhase s (s.time - s.ws))).2 > 0
  case pos =>
    rw [if_pos hmd] at hs4mi ⊢
    have hDm := driveAdvance_meas c
      (pickupPhase c (breakPhase (restPhase s (s.time - s.ws))).1)
      (s.time - s.ws) (breakPhase (restPhase s (s.time - s.ws))).2 hv
      (le_of_lt hmd)
    have hUm := updatePos_meas c (driveAdvance c
      (pickupPhase c (breakPhase (restPhase s (s.time - s.ws))).1)
      (s.time - s.ws) (breakPhase (restPhase s (s.time - s.ws))).2)
    have hFm := fuelCheck_meas c (updatePos c (driveAdvance c
      (pickupPhase c (breakPhase (restPhase s (s.time - s.ws))).1)
      (s.time - s.ws) (breakPhase (restPhase s (s.time - s.ws))).2))
    have h4f := m4_le_three (fuelCheck (updatePos c (driveAdvance c
      (pickupPhase c (breakPhase (restPhase s (s.time - s.ws))).1)
      (s.time - s.ws) (breakPhase (restPhase s (s.time - s.ws))).2)))
    have h4s := m4_nonneg s
    by_cases hrest : s.cum ≥ 11 ∨ s.time - s.ws ≥ 14 ∨ s.c8 ≥ 70
    · have hdec := hA.2.2.2 hrest
      simp only [simMeasure]
      linarith [hFm.1, hFm.2.1, hFm.2.2.1, hUm.1, hUm.2.1, hUm.2.2.1,
        hDm.1, hDm.2.1, hDm.2.2, hC.1, hC.2.1, hC.2.2.1,
        hB.1, hB.2.1, hB.2.2.1]
    · by_cases hbrk : dsbOf (restPhase s (s.time - s.ws)) ≥ 8
      · have hdec := hB.2.2.2 hbrk
        simp only [simMeasure]
        linarith [hFm.1, hFm.2.1, hFm.2.2.1, hUm.1, hUm.2.1, hUm.2.2.1,
          hDm.1, hDm.2.1, hDm.2.2, hC.1, hC.2.1, hC.2.2.1,
          hA.1, hA.2.1, hA.2.2.1]
      · by_cases hpk : (breakPhase (restPhase s (s.time - s.ws))).1.toPickup ∧
            (breakPhase (restPhase s (s.time - s.ws))).1.mi ≥ c.distance1Mi
        · have hdec := hC.2.2.2 hpk
          simp only [simMeasure]
          linarith [hFm.1, hFm.2.1, hFm.2.2.1, hUm.1, hUm.2.1, hUm.2.2.1,
            hDm.1, hDm.2.1, hDm.2.2, hB.1, hB.2.1, hB.2.2.1,
            hA.1, hA.2.1, hA.2.2.1]
        · by_cases hfuel : (updatePos c (driveAdvance c
              (pickupPhase c (breakPhase (restPhase s (s.time - s.ws))).1)
              (s.time - s.ws)
              (breakPhase (restPhase s (s.time - s.ws))).2)).mi ≥
            (updatePos c (driveAdvance c
              (pickupPhase c (breakPhase (restPhase s (s.time - s.ws))).1)
              (s.time - s.ws)
              (breakPhase (restPhase s (s.time - s.ws))).2)).nf
          · have hdec := hFm.2.2.2 hfuel
            simp only [simMeasure]
            linarith [hFm.1, hFm.2.1, hUm.1, hUm.2.1, hUm.2.2.1,
              hDm.1, hDm.2.1, hDm.2.2, hC.1, hC.2.1, hC.2.2.1,
              hB.1, hB.2.1, hB.2.2.1, hA.1, hA.2.1, hA.2.2.1]
          · have hR : restPhase s (s.time - s.ws) = s :=
              restPhase_neg_eq s _ hrest
            push_neg at hrest
            obtain ⟨hcum11, htsw14, hc870⟩ := hrest
            rw [hR] at hbrk
            have hBeq : breakPhase s = (s, dsbOf s) := breakPhase_neg_eq s hbrk
            have hS3 : pickupPhase c
                (breakPhase (restPhase s (s.time - s.ws))).1 = s := by
              rw [hR, hBeq]
              exact pickupPhase_neg_eq c s (by rw [hR, hBeq] at hpk; exact hpk)
            have hD3 : (breakPhase (restPhase s (s.time - s.ws))).2 = dsbOf s := by
              rw [hR, hBeq]
            rw [hS3, hD3] at hfuel hs4mi hmd ⊢
            rw [fuelCheck_neg_eq _ hfuel] at hs4mi ⊢
            obtain ⟨i2, la, lo, e2, hUeq⟩ :=
              updatePos_shape c (driveAdvance c s (s.time - s.ws) (dsbOf s))
            have hnofuel : s.mi +
                maxDriveOf c s (s.time - s.ws) (dsbOf s) < s.nf := by
              rw [hUeq] at hfuel
              exact lt_of_not_ge hfuel
            have hdsbs : dsbOf s < 8 := lt_of_not_ge hbrk
            have hmi_new : s.mi +
                maxDriveOf c s (s.time - s.ws) (dsbOf s) < c.totalMi := by
              rw [hUeq] at hs4mi
              exact hs4mi
            have hcase : maxDriveOf c s (s.time - s.ws) (dsbOf s) / c.avgMph =
                  8 - dsbOf s ∨
                maxDriveOf c s (s.time - s.ws) (dsbOf s) / c.avgMph =
                  11 - s.cum ∨
                maxDriveOf c s (s.time - s.ws) (dsbOf s) / c.avgMph =
                  14 - (s.time - s.ws) := by
              rcases maxDriveOf_cases c s (s.time - s.ws) (dsbOf s) hv hdsbs
                hnofuel with h | h | h | h
              · exact Or.inl h
              · exact Or.inr (Or.inl h)
              · exact Or.inr (Or.inr h)
              · exfalso
                rw [h] at hmi_new
                linarith
            have hm4d := driveAdvance_m4 c s (s.time - s.ws) (dsbOf s) hs
              (div_nonneg (le_of_lt hmd) (le_of_lt hv)) rfl hdsbs hcum11
              rfl htsw14 hcase
            have hUm2 := updatePos_meas c
              (driveAdvance c s (s.time - s.ws) (dsbOf s))
            have hDm2 := driveAdvance_meas c s (s.time - s.ws) (dsbOf s) hv
              (le_of_lt hmd)
            simp only [simMeasure]
            linarith [hUm2.1, hUm2.2.1, hUm2.2.2.1, hUm2.2.2.2,
              hDm2.1, hDm2.2.1, hDm2.2.2, hm4d]
  case neg =>
    rw [if_neg hmd] at hs4mi ⊢
    by_cases hrest : s.cum ≥ 11 ∨ s.time - s.ws ≥ 14 ∨ s.c8 ≥ 70
    · have hdec := hA.2.2.2 hrest
      have h4f := m4_le_three (pickupPhase c
        (breakPhase (restPhase s (s.time - s.ws))).1)
      have h4s := m4_nonneg s
      simp only [simMeasure]
      linarith [hC.1, hC.2.1, hC.2.2.1, hB.1, hB.2.1, hB.2.2.1]
    · by_cases hbrk : dsbOf (restPhase s (s.time - s.ws)) ≥ 8
      · have hdec := hB.2.2.2 hbrk
        have h4f := m4_le_three (pickupPhase c
          (breakPhase (restPhase s (s.time - s.ws))).1)
        have h4s := m4_nonneg s
        simp only [simMeasure]
        linarith [hC.1, hC.2.1, hC.2.2.1, hA.1, hA.2.1, hA.2.2.1]
      · exfalso
        have hR : restPhase s (s.time - s.ws) = s :=
          restPhase_neg_eq s _ hrest
        push_neg at hrest
        obtain ⟨hcum11, htsw14, hc870⟩ := hrest
        rw [hR] at hbrk
        have hBeq : breakPhase s = (s, dsbOf s) := breakPhase_neg_eq s hbrk
        rw [hR, hBeq] at hmd
        apply hmd
        have hcum3 : (pickupPhase c (s, dsbOf s).1).cum < 11 := by
          rw [(pickupPhase_keeps c (s, dsbOf s).1).2.2]
          exact hcum11
        have hrem3 : (pickupPhase c (s, dsbOf s).1).mi < c.totalMi := by
          rw [pickupPhase_mi]
          exact hmi
        have hnf3 : (pickupPhase c (s, dsbOf s).1).mi <
            (pickupPhase c (s, dsbOf s).1).nf := by
          rw [hR, hBeq] at hs3
          exact hs3.mi_nf
        exact maxDriveOf_pos c (pickupPhase c (s, dsbOf s).1) (s.time - s.ws)
          (dsbOf s) hv (lt_of_not_ge hbrk) hcum3 htsw14 hrem3 hnf3

/-- A fired trip-completion block ends the event list with the
status-0 OffDuty event. -/
theorem dropoffPhase_last (c : SimCtx) (s : SimSt) (h : s.mi ≥ c.totalMi) :
    ∃ e, (dropoffPhase c s).events.getLast? = some e ∧
      e.status = 0 ∧ e.loc = .offDuty := by
  rw [dropoffPhase, if_pos h]
  simp only [addEvent]
  exact ⟨_, List.getLast?_concat _, rfl, rfl⟩

/-- The iteration that crosses the total mileage runs the
trip-completion block, so its state ends with the OffDuty event. -/
theorem simStep_last_event (c : SimCtx) (s : SimSt) (hok : c.ok)
    (hs : SimInv c s) (hcross : c.totalMi ≤ (simStep c s).mi) :
    ∃ e, (simStep c s).events.getLast? = some e ∧
      e.status = 0 ∧ e.loc = .offDuty := by
  have hs1 := restPhase_inv c s (s.time - s.ws) hs
  obtain ⟨hs2, hdsb, hd1⟩ := breakPhase_inv c (restPhase s (s.time - s.ws)) hs1
  have hs3 := pickupPhase_inv c (breakPhase (restPhase s (s.time - s.ws))).1 hs2
  obtain ⟨hk1, hk2, hk3⟩ :=
    pickupPhase_keeps c (breakPhase (restPhase s (s.time - s.ws))).1
  have hs4 := drivePhase_inv c
    (pickupPhase c (breakPhase (restPhase s (s.time - s.ws))).1)
    (s.time - s.ws) (breakPhase (restPhase s (s.time - s.ws))).2 hok hs3 hdsb
    (by
      intro h
      rw [hk1, hk2] at h
      rw [hk3]
      exact hd1 h)
  simp only [simStep] at hcross ⊢
  rw [if_neg (by rw [hs4.err_none]; simp)] at hcross ⊢
  have hmi4 : (drivePhase c
      (pickupPhase c (breakPhase (restPhase s (s.time - s.ws))).1)
      (s.time - s.ws)
      (breakPhase (restPhase s (s.time - s.ws))).2).mi ≥ c.totalMi := by
    rw [← dropoffPhase_mi c (drivePhase c
      (pickupPhase c (breakPhase (restPhase s (s.time - s.ws))).1)
      (s.time - s.ws) (breakPhase (restPhase s (s.time - s.ws))).2)]
    exact hcross
  exact dropoffPhase_last c _ hmi4

/-- Bounded-measure induction: from any invariant state still inside
the loop, some number of iterations reaches the total mileage, and the
final state ends with the OffDuty event. -/
theorem simRun_reaches (c : SimCtx) (hok : c.ok) :
    ∀ (k : ℕ) (s : SimSt), SimInv c s → simMeasure c s ≤ (k : ℤ) →
      s.mi < c.totalMi →
      ∃ n, c.totalMi ≤ (simRun c n s).mi ∧ SimInv c (simRun c n s) ∧
        ∃ e, (simRun c n s).events.getLast? = some e ∧ e.status = 0 ∧
          e.loc = .offDuty := by
  intro k
  induction k with
  | zero =>
      intro s hs hk hmi
      by_cases hc : (simStep c s).mi < c.totalMi
      · exfalso
        have hd := simStep_measure_decr c s hok hs hmi hc
        have hn := simMeasure_nonneg c (simStep c s) hok (simStep_inv c s hok hs)
        push_cast at hk
        linarith
      · have h1 : simRun c 1 s = simStep c s := by
          rw [simRun, if_pos ⟨hmi, hs.err_none⟩]
          rfl
        exact ⟨1, by rw [h1]; exact not_lt.mp hc,
          by rw [h1]; exact simStep_inv c s hok hs,
          by rw [h1]; exact simStep_last_event c s hok hs (not_lt.mp hc)⟩
  | succ k ih =>
      intro s hs hk hmi
      by_cases hc : (simStep c s).mi < c.totalMi
      · have hd := simStep_measure_decr c s hok hs hmi hc
        obtain ⟨n, h1, h2, h3⟩ := ih (simStep c s) (simStep_inv c s hok hs)
          (by push_cast at hk ⊢; linarith) hc
        have he : simRun c (n + 1) s = simRun c n (simStep c s) := by
          rw [simRun, if_pos ⟨hmi, hs.err_none⟩]
        exact ⟨n + 1, by rw [he]; exact h1, by rw [he]; exact h2,
          by rw [he]; exact h3⟩
      · have h1 : simRun c 1 s = simStep c s := by
          rw [simRun, if_pos ⟨hmi, hs.err_none⟩]
          rfl
        exact ⟨1, by rw [h1]; exact not_lt.mp hc,
          by rw [h1]; exact simStep_inv c s hok hs,
          by rw [h1]; exact simStep_last_event c s hok hs (not_lt.mp hc)⟩

/-- C2: for positive total distance and duration the duty-cycle loop
terminates: some number of iterations reaches `current_mi >= total_mi`
with no exception recorded, and the last event appended is the
status-0 OffDuty event.  An iteration whose allowed span is not
positive made progress through its rest/break insertion, which the
measure argument accounts for. -/
theorem c2_termination (c : SimCtx) (cycleHours : ℚ)
    (cur pickup dropoff : ℚ × ℚ) (hok : c.ok) :
    ∃ n s, tripSim c cycleHours cur pickup dropoff n = .ok s ∧
      c.totalMi ≤ s.mi ∧ s.err = none ∧
      ∃ e, s.events.getLast? = some e ∧ e.status = 0 ∧ e.loc = .offDuty := by
  obtain ⟨ps, hp⟩ := plannerStops_ok c.fullCum c.fullCoords c.totalMi hok.cum_head
  have hinv0 := simInv_init c hok cycleHours cur
    (ps ++ [{ lat := pickup.1, lon := pickup.2, kind := .pickup },
            { lat := dropoff.1, lon := dropoff.2, kind := .dropoff }])
  have hmi0 : (initSt cycleHours cur
      (ps ++ [{ lat := pickup.1, lon := pickup.2, kind := .pickup },
              { lat := dropoff.1, lon := dropoff.2, kind := .dropoff }])).mi <
      c.totalMi := by
    have hz : (initSt cycleHours cur
        (ps ++ [{ lat := pickup.1, lon := pickup.2, kind := .pickup },
                { lat := dropoff.1, lon := dropoff.2, kind := .dropoff }])).mi =
        0 := rfl
    rw [hz]
    exact hok.total_pos
  obtain ⟨n, h1, h2, h3⟩ := simRun_reaches c hok
    (simMeasure c (initSt cycleHours cur
      (ps ++ [{ lat := pickup.1, lon := pickup.2, kind := .pickup },
              { lat := dropoff.1, lon := dropoff.2, kind := .dropoff }]))).toNat
    (initSt cycleHours cur
      (ps ++ [{ lat := pickup.1, lon := pickup.2, kind := .pickup },
              { lat := dropoff.1, lon := dropoff.2, kind := .dropoff }]))
    hinv0 (Int.self_le_toNat _) hmi0
  exact ⟨n, _, by rw [tripSim, hp], h1, h2.err_none, h3⟩

/-- A concrete instantiation of the C2 termination theorem on a small
well-formed trip. -/
theorem c2_witness :
    ∃ n s, tripSim ⟨0, 400, 8, [(0, 0), (4, 4)], [0, 400]⟩ 0
        (0, 0) (0, 0) (4, 4) n = .ok s ∧
      SimCtx.totalMi ⟨0, 400, 8, [(0, 0), (4, 4)], [0, 400]⟩ ≤ s.mi ∧
      s.err = none ∧
      ∃ e, s.events.getLast? = some e ∧ e.status = 0 ∧ e.loc = .offDuty :=
  c2_termination ⟨0, 400, 8, [(0, 0), (4, 4)], [0, 400]⟩ 0 (0, 0) (0, 0) (4, 4)
    ⟨by norm_num, by norm_num [SimCtx.totalMi], rfl, by simp⟩
